import Mathlib

/-!
# A verification development for the `ffmpeg` filtergraph builder

Shallow embedding of `ffmpeg.go`: the builder context `Cmd`, the stream nodes
(every implementer of the `Stream` interface in the package, the pointer types
`*Input` and `*InputFile` included), node resolution
(`AddStream`), the operator registry (`Cmd.filter`), sink declaration
(`AddOutput`, `AddFileOutput`) and the serializer (`Cmd.Cmd`).

Modelling conventions.
* Go `string` is `String`, Go slices are `List`s, a `*os.File` is the natural
  number naming the open resource (the source only compares such pointers).
* Go `int` values that come from the caller (`n`, `i`, `v`, `a`, `X`, `Y`) are
  `Int`; the sum `v + a` is taken modulo `2^64` (two's complement).  Slice
  positions, slice lengths and the name counter `ns` are `Nat`: each is bounded
  by the number of live slice elements, so none can reach `2^63`.
* `Volume`, `MultiplyPTS` and `ATempo` build a `simpFilter` whose operator
  string is a formatted `float64`; the node they build is covered by
  `Stream.simpFilter` with an arbitrary string, the formatting is not modelled.
* The stream nodes are the values a caller can write with the exported API:
  the results of the constructors, `Input` and `InputFile` literals, pointers
  to these two exported types, and the nil interface value.  `Stream`
  implementers declared by the caller and values made through `reflect` or
  `unsafe` are not nodes of the model.
* A Go run-time panic (nil interface call, index out of range, `make` with a
  negative length) is the result `none`; the context reached at the moment of
  the panic is returned with it, because the mutations done up to that point
  stay visible to a caller that recovers.
-/

set_option linter.dupNamespace false

namespace ffmpeg

/-- Identity of an open `*os.File`. -/
abbrev File := Nat

/-- Model of `strconv.Itoa` (and of the `%d` verb of `fmt.Sprintf`). -/
def Itoa : Int → String
  | Int.ofNat n => Nat.repr n
  | Int.negSucc n => "-" ++ Nat.repr (n + 1)

/-- Two's complement wrap-around of a 64-bit signed `int`. -/
def wrap64 (x : Int) : Int := (x + 2 ^ 63) % 2 ^ 64 - 2 ^ 63

/-- Source `type Input struct`. -/
structure Input where
  Name : String
  Options : List String
deriving DecidableEq, Repr

/-- Source `type filter struct`; the field `String` of the source is `Str`. -/
structure filter where
  In : List String
  Str : String
  Out : List String
deriving DecidableEq, Repr

/-- Source `type output struct`. -/
structure output where
  Name : String
  Options : List String
  StreamSels : List String
deriving DecidableEq, Repr

/-- Source `type Cmd struct`: the builder context. -/
structure Cmd where
  inputFiles : List Input := []
  extraFiles : List File := []
  filters : List filter := []
  outputs : List output := []
  ns : Nat := 0
deriving DecidableEq, Repr

/-- The zero value `Cmd{}`: the empty context. -/
def Cmd.empty : Cmd := {}

/-- The element-wise comparison loops `for i, val := range xs { if ys[i] != val {...} }`
of `Input.AddStream` and `Cmd.filter`: `true` when some position differs.  Both
loops run only after the lengths were found equal, so `ys[i]` is in range. -/
def sliceMismatch : List String → List String → Bool
  | val :: xs, y :: ys => if y ≠ val then true else sliceMismatch xs ys
  | _, _ => false

/-- The labelled search loop of `Input.AddStream`, started at position `j`:
`some i` when the loop ends through `i = j; break`, `none` when `i` is still
`-1` after the loop (the list was exhausted, or `break Outer` was taken). -/
def Input.search (f : Input) : List Input → Nat → Option Nat
  | [], _ => none
  | file :: rest, j =>
    if f.Name ≠ file.Name then Input.search f rest (j + 1)
    else if f.Options.length ≠ file.Options.length then Input.search f rest (j + 1)
    else if sliceMismatch f.Options file.Options then none
    else some j

/-- Source `func (f Input) AddStream(c *Cmd) string`. -/
def Input.AddStream (f : Input) (c : Cmd) : String × Cmd :=
  match Input.search f c.inputFiles 0 with
  | some i => (Itoa i, c)
  | none => (Itoa c.inputFiles.length, { c with inputFiles := c.inputFiles ++ [f] })

/-- The search loop over `c.extraFiles` shared by `InputFile.AddStream` and
`Cmd.AddFileOutput`, started at position `j`. -/
def fileSearch (file : File) : List File → Nat → Option Nat
  | [], _ => none
  | f :: rest, j => if file = f then some j else fileSearch file rest (j + 1)

/-- The first half of `InputFile.AddStream` and of `Cmd.AddFileOutput`: look the
file up, append it when absent, and give its position with the new context. -/
def Cmd.addExtraFile (c : Cmd) (file : File) : Nat × Cmd :=
  match fileSearch file c.extraFiles 0 with
  | some i => (i, c)
  | none => (c.extraFiles.length, { c with extraFiles := c.extraFiles ++ [file] })

/-- Source `func (f InputFile) AddStream(c *Cmd) string`. -/
def InputFile.AddStream (file : File) (options : List String) (c : Cmd) : String × Cmd :=
  let (i, c1) := c.addExtraFile file
  Input.AddStream ⟨"/dev/fd/" ++ Itoa (i + 3), options⟩ c1

/-- The search loop of `Cmd.filter`: the `Out` of the first entry with the same
operator string, the same number of inputs, `n` outputs and equal inputs. -/
def filter.search (in_ : List String) (str : String) (n : Int) : List filter → Option (List String)
  | [] => none
  | f :: rest =>
    if f.Str ≠ str then filter.search in_ str n rest
    else if in_.length ≠ f.In.length ∨ (f.Out.length : Int) ≠ n then filter.search in_ str n rest
    else if sliceMismatch f.In in_ then filter.search in_ str n rest
    else some f.Out

/-- The name-generation loop of `Cmd.filter`: `k` names from counter `ns`, and
the counter afterwards. -/
def genNames : Nat → Nat → List String × Nat
  | 0, ns => ([], ns)
  | k + 1, ns => let r := genNames k (ns + 1); (("s" ++ Itoa ns) :: r.1, r.2)

/-- Source `func (c *Cmd) filter(in []string, str string, n int) []string`. -/
def Cmd.filter (c : Cmd) (in_ : List String) (str : String) (n : Int) :
    Option (List String) × Cmd :=
  match filter.search in_ str n c.filters with
  | some out => (some out, c)
  | none =>
    if n < 0 then (none, c)
    else
      let r := genNames n.toNat c.ns
      (some r.1, { c with filters := c.filters ++ [⟨in_, str, r.1⟩], ns := r.2 })

/-- Go slice indexing `xs[i]`: `none` is the index-out-of-range panic. -/
def index (xs : List String) (i : Int) : Option String :=
  if i < 0 then none else xs[i.toNat]?

/-- Sequencing of two steps on the context; a panic stops the sequence and keeps
the context reached so far. -/
def andThen {α β : Type} (r : Option α × Cmd) (k : α → Cmd → Option β × Cmd) : Option β × Cmd :=
  match r with
  | (none, c) => (none, c)
  | (some a, c) => k a c

/-- The tail `c.filter(inputs, str, n)[i]` of every operator node. -/
def Cmd.filterAt (c : Cmd) (inputs : List String) (str : String) (n i : Int) :
    Option String × Cmd :=
  andThen (c.filter inputs str n) (fun out c1 => (index out i, c1))

/-- The implementers of the `Stream` interface; `nil` is the nil interface value.
`Input` and `InputFile` are exported and their `AddStream` has a value receiver,
so `*Input` and `*InputFile` implement `Stream` too: `inputPtr` and
`inputFilePtr` are these pointer nodes, `none` being the nil pointer. -/
inductive Stream where
  | nil : Stream
  | input (f : Input) : Stream
  | inputFile (File : File) (Options : List String) : Stream
  | inputPtr (p : Option Input) : Stream
  | inputFilePtr (p : Option (File × List String)) : Stream
  | streamPortion (s : Stream) (streamType : String) : Stream
  | optionalStream (s : Stream) : Stream
  | splitFilter (s : Stream) (filter : String) (n i : Int) : Stream
  | concatFilter (s : List Stream) (v a i : Int) : Stream
  | simpFilter (s : Stream) (filter : String) : Stream
  | aMix (Streams : List Stream) : Stream
  | overlay (Under Over : Stream) (X Y : Int) : Stream
  | paletteUse (Video Palette : Stream) : Stream

mutual
/-- The `AddStream` methods of the package, by node kind.  A call through a
`*Input` or `*InputFile` runs the method of the value pointed to, and panics on
a nil pointer. -/
def Stream.AddStream : Stream → Cmd → Option String × Cmd
  | .nil, c => (none, c)
  | .input f, c => let r := f.AddStream c; (some r.1, r.2)
  | .inputFile file options, c => let r := InputFile.AddStream file options c; (some r.1, r.2)
  | .inputPtr none, c => (none, c)
  | .inputPtr (some f), c => let r := f.AddStream c; (some r.1, r.2)
  | .inputFilePtr none, c => (none, c)
  | .inputFilePtr (some p), c => let r := InputFile.AddStream p.1 p.2 c; (some r.1, r.2)
  | .streamPortion s streamType, c =>
    andThen (s.AddStream c) (fun r c1 => (some (r ++ ":" ++ streamType), c1))
  | .optionalStream s, c =>
    andThen (s.AddStream c) (fun r c1 => (some (r ++ "?"), c1))
  | .splitFilter s flt n i, c =>
    andThen (s.AddStream c) (fun r c1 => c1.filterAt [r] (flt ++ "=" ++ Itoa n) n i)
  | .concatFilter ss v a i, c =>
    andThen (Stream.AddStreams ss c) (fun inputs c1 =>
      c1.filterAt inputs ("concat=v=" ++ Itoa v ++ ":a=" ++ Itoa a) (wrap64 (v + a)) i)
  | .simpFilter .nil flt, c => c.filterAt [] flt 1 0
  | .simpFilter s flt, c =>
    andThen (s.AddStream c) (fun r c1 => c1.filterAt [r] flt 1 0)
  | .aMix ss, c =>
    andThen (Stream.AddStreams ss c) (fun inputs c1 =>
      c1.filterAt inputs ("amix=inputs=" ++ Itoa inputs.length ++ ":duration=shortest") 1 0)
  | .overlay under over x y, c =>
    andThen (under.AddStream c) (fun r1 c1 =>
      andThen (over.AddStream c1) (fun r2 c2 =>
        c2.filterAt [r1, r2] ("overlay=" ++ Itoa x ++ ":" ++ Itoa y) 1 0))
  | .paletteUse video palette, c =>
    andThen (video.AddStream c) (fun r1 c1 =>
      andThen (palette.AddStream c1) (fun r2 c2 =>
        c2.filterAt [r1, r2] "paletteuse" 1 0))
/-- The loops `for i, s := range streams { inputs[i] = s.AddStream(c) }`. -/
def Stream.AddStreams : List Stream → Cmd → Option (List String) × Cmd
  | [], c => (some [], c)
  | s :: rest, c =>
    andThen (s.AddStream c) (fun r c1 =>
      andThen (Stream.AddStreams rest c1) (fun rs c2 => (some (r :: rs), c2)))
end

/-- Source `func IsInputStream(s Stream) bool`.  The type switch has the cases
`Input, InputFile`, `streamPortion` and `optionalStream`; a `*Input` or a
`*InputFile` matches none of them. -/
def IsInputStream : Stream → Bool
  | .input _ => true
  | .inputFile _ _ => true
  | .streamPortion s _ => IsInputStream s
  | .optionalStream s => IsInputStream s
  | _ => false

/-- The loop of `Cmd.AddOutput` that fills `o.StreamSels`. -/
def Cmd.addSels : List Stream → Cmd → Option (List String) × Cmd
  | [], c => (some [], c)
  | s :: rest, c =>
    andThen (s.AddStream c) (fun r c1 =>
      andThen (Cmd.addSels rest c1) (fun rs c2 =>
        (some ((if IsInputStream s then r else "[" ++ r ++ "]") :: rs), c2)))

/-- Source `func (c *Cmd) AddOutput(name string, options []string, streams ...Stream)`. -/
def Cmd.AddOutput (c : Cmd) (name : String) (options : List String) (streams : List Stream) :
    Option Unit × Cmd :=
  andThen (Cmd.addSels streams c) (fun sels c1 =>
    (some (), { c1 with outputs := c1.outputs ++ [⟨name, options, sels⟩] }))

/-- Source `func (c *Cmd) AddFileOutput(file *os.File, options []string, streams ...Stream)`. -/
def Cmd.AddFileOutput (c : Cmd) (file : File) (options : List String) (streams : List Stream) :
    Option Unit × Cmd :=
  let r := c.addExtraFile file
  r.2.AddOutput ("/dev/fd/" ++ Itoa (r.1 + 3)) options streams

/-- The loops `for _, i := range refs { fmt.Fprintf(sb, "[%s]", i) }` of `Cmd.Cmd`. -/
def writeRefs (sb : String) (refs : List String) : String :=
  refs.foldl (fun sb i => sb ++ "[" ++ i ++ "]") sb

/-- The loop `for i, f := range c.filters` of `Cmd.Cmd` from position `i` on,
writing to the string builder `sb`; `total` is `len(c.filters)`. -/
def writeFilters (total : Nat) : Nat → List filter → String → String
  | _, [], sb => sb
  | i, f :: rest, sb =>
    let sb1 := writeRefs sb f.In
    let sb2 := sb1 ++ f.Str
    let sb3 := writeRefs sb2 f.Out
    let sb4 := if i ≠ total - 1 then sb3 ++ ";" else sb3
    writeFilters total (i + 1) rest sb4

/-- The slice `args` that `Cmd.Cmd` builds and hands to `exec.Command`. -/
def Cmd.args (c : Cmd) : List String :=
  let args1 := c.inputFiles.foldl (fun args in_ => args ++ in_.Options ++ ["-i", in_.Name]) []
  let args2 :=
    if c.filters.length ≠ 0 then
      args1 ++ ["-filter_complex", writeFilters c.filters.length 0 c.filters ""]
    else args1
  c.outputs.foldl
    (fun args o => (o.StreamSels.foldl (fun args s => args ++ ["-map", s]) args)
      ++ o.Options ++ [o.Name])
    args2

/-- What `Cmd.Cmd` sets on the `*exec.Cmd` it returns. -/
structure ExecCmd where
  Name : String
  Args : List String
  ExtraFiles : List File
deriving DecidableEq, Repr

/-- Source `func (c *Cmd) Cmd() *exec.Cmd`. -/
def Cmd.Cmd (c : Cmd) : ExecCmd := ⟨"ffmpeg", c.args, c.extraFiles⟩

/-- Source `func Video(s Stream) Stream`. -/
def Video (s : Stream) : Stream := .streamPortion s "v"

/-- Source `func Audio(s Stream) Stream`. -/
def Audio (s : Stream) : Stream := .streamPortion s "a"

/-- Source `func Optional(s Stream) Stream`. -/
def Optional (s : Stream) : Stream := .optionalStream s

/-- Source `func split(stream Stream, n int, filter string) []Stream`; `none` is
the panic of `make([]Stream, n)` on a negative `n`. -/
def split (stream : Stream) (n : Int) (flt : String) : Option (List Stream) :=
  if n < 0 then none
  else some ((List.range n.toNat).map (fun i => Stream.splitFilter stream flt n i))

/-- Source `func SplitN(stream Stream, n int) []Stream`. -/
def SplitN (stream : Stream) (n : Int) : Option (List Stream) := split stream n "split"

/-- Source `func ASplitN(stream Stream, n int) []Stream`. -/
def ASplitN (stream : Stream) (n : Int) : Option (List Stream) := split stream n "asplit"

/-- Source `func Concat(v, a int, streams ...Stream) []Stream`. -/
def Concat (v a : Int) (streams : List Stream) : List Stream :=
  (List.range streams.length).map (fun i => Stream.concatFilter streams v a i)

/-- Source `func Filter(s Stream, str string) Stream`. -/
def Filter (s : Stream) (str : String) : Stream := .simpFilter s str

/-- Source `func Hflip(s Stream) Stream`. -/
def Hflip (s : Stream) : Stream := .simpFilter s "hflip"

/-- Source `func Split(stream Stream) (Stream, Stream)`: `streams[0], streams[1]`
of `SplitN(stream, 2)`. -/
def Split (stream : Stream) : Stream × Stream :=
  (.splitFilter stream "split" 2 0, .splitFilter stream "split" 2 1)

/-- Source `func ASplit(stream Stream) (Stream, Stream)`. -/
def ASplit (stream : Stream) : Stream × Stream :=
  (.splitFilter stream "asplit" 2 0, .splitFilter stream "asplit" 2 1)

/-- Source `func Reverse(s Stream) Stream`. -/
def Reverse (s : Stream) : Stream := .simpFilter s "reverse"

/-- Source `func Areverse(s Stream) Stream`. -/
def Areverse (s : Stream) : Stream := .simpFilter s "areverse"

/-- Source `func APad(s Stream) Stream`. -/
def APad (s : Stream) : Stream := .simpFilter s "apad"

/-- Source `var ANullSrc Stream`. -/
def ANullSrc : Stream := .input ⟨"anullsrc", ["-f", "lavfi"]⟩

/-- Source `func PaletteGen(s Stream) Stream`. -/
def PaletteGen (s : Stream) : Stream := .simpFilter s "palettegen"

/-- Source `func AMix(streams ...Stream) Stream`. -/
def AMix (streams : List Stream) : Stream := .aMix streams

/-- Source `func Overlay(under, over Stream, x, y int) Stream`. -/
def Overlay (under over : Stream) (x y : Int) : Stream := .overlay under over x y

/-- Source `func PaletteUse(v, palette Stream) Stream`. -/
def PaletteUse (v palette : Stream) : Stream := .paletteUse v palette

/-- The contexts a caller can hold: the fields of `Cmd` are unexported, so a
context starts as `Cmd{}` and changes only through node resolution,
`AddOutput` and `AddFileOutput` (a call that panics included). -/
inductive Reachable : Cmd → Prop where
  | empty : Reachable Cmd.empty
  | addStream {c : Cmd} (s : Stream) : Reachable c → Reachable (s.AddStream c).2
  | addOutput {c : Cmd} (name : String) (options : List String) (streams : List Stream) :
      Reachable c → Reachable (c.AddOutput name options streams).2
  | addFileOutput {c : Cmd} (file : File) (options : List String) (streams : List Stream) :
      Reachable c → Reachable (c.AddFileOutput file options streams).2

/-- Decimal value of a list of digit characters. -/
def digitsValue (cs : List Char) : Nat :=
  cs.foldl (fun acc ch => 10 * acc + (ch.toNat - 48)) 0

/-- The name that `Cmd.filter` generates at counter value `k`. -/
def genName (k : Nat) : String := "s" ++ Itoa k

/-- The output names of a list of operator applications, in registration order. -/
def outNames (fs : List filter) : List String := (fs.map filter.Out).flatten

/-- The reference without its suffixes: the part before the first `:` or `?`
(a stream-type suffix is `:` and the type, the optional suffix is `?`). -/
def refBase (r : String) : String :=
  ⟨r.data.takeWhile (fun ch => ch != ':' && ch != '?')⟩

/-- Context `c1` is `c` grown by appending: every list of `c` starts the
list of `c1` and the name counter did not go down. -/
structure Cmd.Extends (c c1 : ffmpeg.Cmd) : Prop where
  inputFiles : c.inputFiles <+: c1.inputFiles
  extraFiles : c.extraFiles <+: c1.extraFiles
  filters : c.filters <+: c1.filters
  outputs : c.outputs <+: c1.outputs
  ns : c.ns ≤ c1.ns

/-- A property `P` of contexts and a property `Q c r` of a reference `r` in a
context `c` are kept by the primitive steps of the builder: registering a
source, registering a file, adding a suffix, registering an operator over
references with `Q`, and appending a sink whose references have `Q`. -/
structure Preserved (P : Cmd → Prop) (Q : Cmd → String → Prop) : Prop where
  mono : ∀ c c1 r, P c → c.Extends c1 → P c1 → Q c r → Q c1 r
  source : ∀ f c, P c → P (Input.AddStream f c).2 ∧
    Q (Input.AddStream f c).2 (Input.AddStream f c).1
  file : ∀ file c, P c → P (c.addExtraFile file).2
  portion : ∀ c r t, P c → Q c r → Q c (r ++ ":" ++ t)
  optional : ∀ c r, P c → Q c r → Q c (r ++ "?")
  operator : ∀ c ins str n, P c → (∀ r ∈ ins, Q c r) →
    P (c.filter ins str n).2 ∧
      ∀ out, (c.filter ins str n).1 = some out → ∀ r ∈ out, Q (c.filter ins str n).2 r
  sink : ∀ c name options sels, P c →
    (∀ x ∈ sels, ∃ r, Q c r ∧ (x = r ∨ x = "[" ++ r ++ "]")) →
    P { c with outputs := c.outputs ++ [⟨name, options, sels⟩] }

/-- Outcome of a resolution under `P` and `Q`: the context has `P` and a
returned reference has `Q` in it. -/
def Good (P : Cmd → Prop) (Q : Cmd → String → Prop) (x : Option String × Cmd) : Prop :=
  P x.2 ∧ ∀ r, x.1 = some r → Q x.2 r

/-- Outcome of resolving a list of nodes under `P` and `Q`. -/
def GoodList (P : Cmd → Prop) (Q : Cmd → String → Prop) (x : Option (List String) × Cmd) : Prop :=
  P x.2 ∧ ∀ rs, x.1 = some rs → ∀ r ∈ rs, Q x.2 r

/-- Outcome of the selector loop of `AddOutput` under `P` and `Q`: every stored
selector is a reference with `Q`, bare or in brackets. -/
def GoodSels (P : Cmd → Prop) (Q : Cmd → String → Prop) (x : Option (List String) × Cmd) : Prop :=
  P x.2 ∧ ∀ sels, x.1 = some sels → ∀ y ∈ sels, ∃ r, Q x.2 r ∧ (y = r ∨ y = "[" ++ r ++ "]")

/-- Invariant of generated names: the output names of the operator list, in
registration order, are the names generated at counter values `0 .. ns-1`. -/
def NamesInv (c : Cmd) : Prop :=
  outNames c.filters = (List.range c.ns).map genName

/-- The dedup key of an operator application: entry `f` has operator string
`str`, inputs element-wise equal to `ins`, and exactly `n` output names. -/
def filter.Matches (f : filter) (ins : List String) (str : String) (n : Int) : Prop :=
  f.Str = str ∧ f.In = ins ∧ (f.Out.length : Int) = n

instance (f : filter) (ins : List String) (str : String) (n : Int) :
    Decidable (f.Matches ins str n) := by
  unfold filter.Matches; infer_instance

/-- Invariant of the operator list: no entry has the key of an earlier one. -/
def KeysInv (c : Cmd) : Prop :=
  c.filters.Pairwise (fun a b => ¬ b.Matches a.In a.Str a.Out.length)

/-- Reference `r` is valid over the operator list `fs`: a base, which is the
decimal of a source position or an output name of `fs`, followed by nothing or
by suffixes, the first of which starts with `:` or `?`. -/
def RefIn (fs : List filter) (r : String) : Prop :=
  ∃ base suf : String, r = base ++ suf ∧
    (suf = "" ∨ ∃ ch rest, suf.data = ch :: rest ∧ (ch = ':' ∨ ch = '?')) ∧
    ((∃ i : Nat, base = Itoa i) ∨ base ∈ outNames fs)

/-- Invariant of the operator list: the inputs of every entry are valid
references over the entries before it. -/
def TopoInv (c : Cmd) : Prop :=
  ∀ pre f post, c.filters = pre ++ f :: post → ∀ r ∈ f.In, RefIn pre r

/-- The middle block of `Cmd.Cmd`: what it appends for the operator list. -/
def filterArgs (fs : List filter) : List String :=
  if fs.length ≠ 0 then ["-filter_complex", writeFilters fs.length 0 fs ""] else []

/-- Source arguments as the spec words them: per source, in registration order,
its option strings, then `-i`, then its name. -/
def specSourceArgs (inputs : List Input) : List String :=
  inputs.flatMap (fun f => f.Options ++ ["-i", f.Name])

/-- Sink arguments as the spec words them: per sink, in declaration order, one
`-map` and reference per stream reference, then the options, then the name. -/
def specSinkArgs (outputs : List output) : List String :=
  outputs.flatMap (fun o => o.StreamSels.flatMap (fun s => ["-map", s]) ++ o.Options ++ [o.Name])

/-- Rendering of one operator application as the spec words it: every input in
brackets, the operator string, every output name in brackets. -/
def specRender (f : filter) : String :=
  String.join (f.In.map (fun r => "[" ++ r ++ "]")) ++ f.Str ++
    String.join (f.Out.map (fun r => "[" ++ r ++ "]"))

/-- The chain as the spec words it: the renderings joined by `;`. -/
def specChain (fs : List filter) : String :=
  String.intercalate ";" (fs.map specRender)

/-- The selector `AddOutput` stores for stream `s` resolved to reference `r`:
bare for an input stream, in brackets otherwise. -/
def streamSel (s : Stream) (r : String) : String :=
  if IsInputStream s then r else "[" ++ r ++ "]"

/-- The node is an operator application: a splitter, a concatenator, a simple
filter, a mixer, an overlay or a palette application. -/
def isOperator : Stream → Bool
  | .splitFilter _ _ _ _ => true
  | .concatFilter _ _ _ _ => true
  | .simpFilter _ _ => true
  | .aMix _ => true
  | .overlay _ _ _ _ => true
  | .paletteUse _ _ => true
  | _ => false

/-- The node is a `Video`/`Audio` selection or an `Optional` marker. -/
def isWrapper : Stream → Bool
  | .streamPortion _ _ => true
  | .optionalStream _ => true
  | _ => false

/-- A stored reference without its surrounding brackets. -/
def unbracket (x : String) : String :=
  match x.data with
  | '[' :: rest => if rest.getLast? = some ']' then ⟨rest.dropLast⟩ else x
  | _ => x

/-- The base name `b` is resolved in context `c`: it is the decimal of a
position of the source list or an output name of the operator list. -/
def Resolved (c : Cmd) (b : String) : Prop :=
  (∃ i : Nat, i < c.inputFiles.length ∧ b = Itoa i) ∨ b ∈ outNames c.filters

/-- Reference `r` is valid in context `c`: a base resolved in `c`, followed by
nothing or by suffixes, the first of which starts with `:` or `?`. -/
def RefValid (c : Cmd) (r : String) : Prop :=
  ∃ base suf : String, r = base ++ suf ∧
    (suf = "" ∨ ∃ ch rest, suf.data = ch :: rest ∧ (ch = ':' ∨ ch = '?')) ∧ Resolved c base

/-- Invariant of stored references: every operator input is a valid reference,
and every sink selector is a valid reference, bare or in brackets. -/
def RefsInv (c : Cmd) : Prop :=
  (∀ f ∈ c.filters, ∀ r ∈ f.In, RefValid c r) ∧
  (∀ o ∈ c.outputs, ∀ x ∈ o.StreamSels, ∃ r, RefValid c r ∧ (x = r ∨ x = "[" ++ r ++ "]"))

/-- The node is a source or a file handle, given by value or through a pointer,
possibly inside `Video`/`Audio`/`Optional`. -/
def isSource : Stream → Bool
  | .input _ => true
  | .inputFile _ _ => true
  | .inputPtr _ => true
  | .inputFilePtr _ => true
  | .streamPortion s _ => isSource s
  | .optionalStream s => isSource s
  | _ => false

/-! ## Decimal representations -/

theorem digitChar_isDigit (k : Nat) (hk : k < 10) : (Nat.digitChar k).isDigit = true := by
  interval_cases k <;> decide

theorem digitChar_value (k : Nat) (hk : k < 10) : (Nat.digitChar k).toNat - 48 = k := by
  interval_cases k <;> decide

theorem toDigitsCore_append (fuel : Nat) : ∀ (n : Nat) (ds : List Char),
    Nat.toDigitsCore 10 fuel n ds = Nat.toDigitsCore 10 fuel n [] ++ ds := by
  induction fuel with
  | zero => intro n ds; simp [Nat.toDigitsCore]
  | succ fuel ih =>
    intro n ds
    simp only [Nat.toDigitsCore]
    split
    · simp
    · rw [ih (n / 10) (_ :: ds), ih (n / 10) [_]]; simp

theorem digitsValue_append (xs ys : List Char) :
    digitsValue (xs ++ ys) = ys.foldl (fun acc ch => 10 * acc + (ch.toNat - 48)) (digitsValue xs) := by
  simp [digitsValue, List.foldl_append]

theorem digitsValue_toDigitsCore (fuel : Nat) : ∀ n : Nat, n < fuel →
    digitsValue (Nat.toDigitsCore 10 fuel n []) = n := by
  induction fuel with
  | zero => intro n h; omega
  | succ fuel ih =>
    intro n h
    simp only [Nat.toDigitsCore]
    split
    · rename_i h0
      have : n < 10 := by omega
      simp [digitsValue, digitChar_value (n % 10) (Nat.mod_lt _ (by decide))]
      omega
    · rename_i h0
      rw [toDigitsCore_append, digitsValue_append, ih (n / 10) (by omega)]
      simp [digitChar_value (n % 10) (Nat.mod_lt _ (by decide))]
      omega

theorem toDigitsCore_digits (fuel : Nat) : ∀ (n : Nat) (ds : List Char),
    (∀ ch ∈ ds, ch.isDigit = true) → ∀ ch ∈ Nat.toDigitsCore 10 fuel n ds, ch.isDigit = true := by
  induction fuel with
  | zero => intro n ds h; simpa [Nat.toDigitsCore] using h
  | succ fuel ih =>
    intro n ds h
    have hd : ∀ ch ∈ Nat.digitChar (n % 10) :: ds, ch.isDigit = true := by
      intro ch hch
      rcases List.mem_cons.1 hch with rfl | hch
      · exact digitChar_isDigit _ (Nat.mod_lt _ (by decide))
      · exact h ch hch
    simp only [Nat.toDigitsCore]
    split
    · exact hd
    · exact ih _ _ hd

theorem toDigitsCore_ne_nil (fuel n : Nat) : Nat.toDigitsCore 10 (fuel + 1) n [] ≠ [] := by
  simp only [Nat.toDigitsCore]
  split
  · simp
  · rw [toDigitsCore_append]; simp

theorem repr_data (n : Nat) : (Nat.repr n).data = Nat.toDigits 10 n := rfl

theorem repr_injective : Function.Injective Nat.repr := by
  intro a b h
  have h1 : digitsValue (Nat.repr a).data = digitsValue (Nat.repr b).data := by rw [h]
  simpa [repr_data, Nat.toDigits, digitsValue_toDigitsCore] using h1

theorem repr_digits (n : Nat) : ∀ ch ∈ (Nat.repr n).data, ch.isDigit = true := by
  rw [repr_data]; exact toDigitsCore_digits _ _ _ (by simp)

theorem repr_ne_nil (n : Nat) : (Nat.repr n).data ≠ [] := by
  rw [repr_data]; exact toDigitsCore_ne_nil _ _



/-! ## Induction over stream nodes -/

mutual
theorem Stream.ind_aux {M : Stream → Prop}
    (nil : M .nil) (input : ∀ f, M (.input f)) (inputFile : ∀ file o, M (.inputFile file o))
    (inputPtr : ∀ p, M (.inputPtr p)) (inputFilePtr : ∀ p, M (.inputFilePtr p))
    (streamPortion : ∀ s t, M s → M (.streamPortion s t))
    (optionalStream : ∀ s, M s → M (.optionalStream s))
    (splitFilter : ∀ s flt n i, M s → M (.splitFilter s flt n i))
    (concatFilter : ∀ ss v a i, (∀ s ∈ ss, M s) → M (.concatFilter ss v a i))
    (simpFilter : ∀ s flt, M s → M (.simpFilter s flt))
    (aMix : ∀ ss, (∀ s ∈ ss, M s) → M (.aMix ss))
    (overlay : ∀ u o x y, M u → M o → M (.overlay u o x y))
    (paletteUse : ∀ v p, M v → M p → M (.paletteUse v p)) : ∀ s : Stream, M s
  | .nil => nil
  | .input f => input f
  | .inputFile file o => inputFile file o
  | .inputPtr p => inputPtr p
  | .inputFilePtr p => inputFilePtr p
  | .streamPortion s t => streamPortion s t
      (Stream.ind_aux nil input inputFile inputPtr inputFilePtr streamPortion optionalStream
        splitFilter concatFilter simpFilter aMix overlay paletteUse s)
  | .optionalStream s => optionalStream s
      (Stream.ind_aux nil input inputFile inputPtr inputFilePtr streamPortion optionalStream
        splitFilter concatFilter simpFilter aMix overlay paletteUse s)
  | .splitFilter s flt n i => splitFilter s flt n i
      (Stream.ind_aux nil input inputFile inputPtr inputFilePtr streamPortion optionalStream
        splitFilter concatFilter simpFilter aMix overlay paletteUse s)
  | .concatFilter ss v a i => concatFilter ss v a i
      (Stream.ind_list nil input inputFile inputPtr inputFilePtr streamPortion optionalStream
        splitFilter concatFilter simpFilter aMix overlay paletteUse ss)
  | .simpFilter s flt => simpFilter s flt
      (Stream.ind_aux nil input inputFile inputPtr inputFilePtr streamPortion optionalStream
        splitFilter concatFilter simpFilter aMix overlay paletteUse s)
  | .aMix ss => aMix ss
      (Stream.ind_list nil input inputFile inputPtr inputFilePtr streamPortion optionalStream
        splitFilter concatFilter simpFilter aMix overlay paletteUse ss)
  | .overlay u o x y => overlay u o x y
      (Stream.ind_aux nil input inputFile inputPtr inputFilePtr streamPortion optionalStream
        splitFilter concatFilter simpFilter aMix overlay paletteUse u)
      (Stream.ind_aux nil input inputFile inputPtr inputFilePtr streamPortion optionalStream
        splitFilter concatFilter simpFilter aMix overlay paletteUse o)
  | .paletteUse v p => paletteUse v p
      (Stream.ind_aux nil input inputFile inputPtr inputFilePtr streamPortion optionalStream
        splitFilter concatFilter simpFilter aMix overlay paletteUse v)
      (Stream.ind_aux nil input inputFile inputPtr inputFilePtr streamPortion optionalStream
        splitFilter concatFilter simpFilter aMix overlay paletteUse p)
theorem Stream.ind_list {M : Stream → Prop}
    (nil : M .nil) (input : ∀ f, M (.input f)) (inputFile : ∀ file o, M (.inputFile file o))
    (inputPtr : ∀ p, M (.inputPtr p)) (inputFilePtr : ∀ p, M (.inputFilePtr p))
    (streamPortion : ∀ s t, M s → M (.streamPortion s t))
    (optionalStream : ∀ s, M s → M (.optionalStream s))
    (splitFilter : ∀ s flt n i, M s → M (.splitFilter s flt n i))
    (concatFilter : ∀ ss v a i, (∀ s ∈ ss, M s) → M (.concatFilter ss v a i))
    (simpFilter : ∀ s flt, M s → M (.simpFilter s flt))
    (aMix : ∀ ss, (∀ s ∈ ss, M s) → M (.aMix ss))
    (overlay : ∀ u o x y, M u → M o → M (.overlay u o x y))
    (paletteUse : ∀ v p, M v → M p → M (.paletteUse v p)) : ∀ ss : List Stream, ∀ s ∈ ss, M s
  | [] => by simp
  | s :: rest => by
    intro x hx
    rcases List.mem_cons.1 hx with rfl | hx
    · exact Stream.ind_aux nil input inputFile inputPtr inputFilePtr streamPortion optionalStream
        splitFilter concatFilter simpFilter aMix overlay paletteUse x
    · exact Stream.ind_list nil input inputFile inputPtr inputFilePtr streamPortion optionalStream
        splitFilter concatFilter simpFilter aMix overlay paletteUse rest x hx
end

/-- Induction over stream nodes; an operator over a list of nodes gets the
property for every node of the list. -/
@[elab_as_elim]
theorem Stream.ind {M : Stream → Prop}
    (nil : M .nil) (input : ∀ f, M (.input f)) (inputFile : ∀ file o, M (.inputFile file o))
    (inputPtr : ∀ p, M (.inputPtr p)) (inputFilePtr : ∀ p, M (.inputFilePtr p))
    (streamPortion : ∀ s t, M s → M (.streamPortion s t))
    (optionalStream : ∀ s, M s → M (.optionalStream s))
    (splitFilter : ∀ s flt n i, M s → M (.splitFilter s flt n i))
    (concatFilter : ∀ ss v a i, (∀ s ∈ ss, M s) → M (.concatFilter ss v a i))
    (simpFilter : ∀ s flt, M s → M (.simpFilter s flt))
    (aMix : ∀ ss, (∀ s ∈ ss, M s) → M (.aMix ss))
    (overlay : ∀ u o x y, M u → M o → M (.overlay u o x y))
    (paletteUse : ∀ v p, M v → M p → M (.paletteUse v p)) (s : Stream) : M s :=
  Stream.ind_aux nil input inputFile inputPtr inputFilePtr streamPortion optionalStream
    splitFilter concatFilter simpFilter aMix overlay paletteUse s

/-! ## Resolution only appends -/

theorem Cmd.Extends.refl (c : ffmpeg.Cmd) : c.Extends c :=
  ⟨List.prefix_refl _, List.prefix_refl _, List.prefix_refl _, List.prefix_refl _, le_refl _⟩

theorem Cmd.Extends.trans {a b c : ffmpeg.Cmd} (h1 : a.Extends b) (h2 : b.Extends c) : a.Extends c :=
  ⟨h1.inputFiles.trans h2.inputFiles, h1.extraFiles.trans h2.extraFiles,
    h1.filters.trans h2.filters, h1.outputs.trans h2.outputs, le_trans h1.ns h2.ns⟩

theorem input_AddStream_extends (f : Input) (c : Cmd) : c.Extends (f.AddStream c).2 := by
  unfold Input.AddStream
  split
  · exact Cmd.Extends.refl c
  · exact ⟨List.prefix_append _ _, List.prefix_refl _, List.prefix_refl _, List.prefix_refl _,
      le_refl _⟩

theorem Cmd.addExtraFile_extends (c : ffmpeg.Cmd) (file : File) : c.Extends (c.addExtraFile file).2 := by
  unfold Cmd.addExtraFile
  split
  · exact Cmd.Extends.refl c
  · exact ⟨List.prefix_refl _, List.prefix_append _ _, List.prefix_refl _, List.prefix_refl _,
      le_refl _⟩

theorem inputFile_AddStream_extends (file : File) (o : List String) (c : Cmd) :
    c.Extends (InputFile.AddStream file o c).2 :=
  (Cmd.addExtraFile_extends c file).trans (input_AddStream_extends _ _)

theorem genNames_eq (k : Nat) : ∀ ns : Nat,
    genNames k ns = ((List.range k).map (fun i => genName (ns + i)), ns + k) := by
  induction k with
  | zero => intro ns; rfl
  | succ k ih =>
    intro ns
    simp only [genNames, ih, List.range_succ_eq_map, List.map_cons, List.map_map]
    refine Prod.ext ?_ (by simp; omega)
    simp only [genName, Nat.add_zero, List.cons.injEq, true_and]
    apply List.map_congr_left
    intro i _
    simp only [Function.comp]
    congr 2
    omega

theorem Cmd.filter_extends (c : ffmpeg.Cmd) (ins : List String) (str : String) (n : Int) :
    c.Extends (c.filter ins str n).2 := by
  unfold Cmd.filter
  split
  · exact Cmd.Extends.refl c
  · split
    · exact Cmd.Extends.refl c
    · refine ⟨List.prefix_refl _, List.prefix_refl _, List.prefix_append _ _, List.prefix_refl _, ?_⟩
      simp [genNames_eq]

/-- Rule for `andThen`: a property of the result holds when it holds at a panic
of the first step and at every continuation. -/
theorem andThen_elim {α β : Type} (R : Option β × Cmd → Prop) (r : Option α × Cmd)
    (k : α → Cmd → Option β × Cmd) (h0 : r.1 = none → R (none, r.2))
    (h1 : ∀ a, r.1 = some a → R (k a r.2)) : R (andThen r k) := by
  rcases r with ⟨_ | a, c⟩
  · exact h0 rfl
  · exact h1 a rfl

theorem Cmd.filterAt_extends (c : ffmpeg.Cmd) (ins : List String) (str : String) (n i : Int) :
    c.Extends (c.filterAt ins str n i).2 := by
  unfold Cmd.filterAt
  apply andThen_elim (fun x => c.Extends x.2)
  · intro _; exact Cmd.filter_extends _ _ _ _
  · intro _ _; exact Cmd.filter_extends _ _ _ _

theorem index_mem {xs : List String} {i : Int} {r : String} (h : index xs i = some r) : r ∈ xs := by
  unfold index at h
  split at h
  · cases h
  · exact List.getElem?_mem h

theorem Stream.AddStreams_extends_of (ss : List Stream)
    (h : ∀ s ∈ ss, ∀ c : Cmd, c.Extends (s.AddStream c).2) :
    ∀ c : Cmd, c.Extends (Stream.AddStreams ss c).2 := by
  induction ss with
  | nil => intro c; simp only [Stream.AddStreams]; exact Cmd.Extends.refl c
  | cons s rest ih =>
    intro c
    simp only [Stream.AddStreams]
    have hs := h s (List.mem_cons_self _ _) c
    apply andThen_elim (fun x => c.Extends x.2)
    · intro _; exact hs
    · intro r _
      have hr := ih (fun x hx => h x (List.mem_cons_of_mem _ hx)) (s.AddStream c).2
      apply andThen_elim (fun x => c.Extends x.2)
      · intro _; exact hs.trans hr
      · intro _ _; exact hs.trans hr

/-- Node resolution only appends to the lists of the context. -/
theorem Stream.AddStream_extends (s : Stream) : ∀ c : Cmd, c.Extends (s.AddStream c).2 := by
  induction s using Stream.ind with
  | nil => intro c; simp only [Stream.AddStream]; exact Cmd.Extends.refl c
  | input f => intro c; simp only [Stream.AddStream]; exact input_AddStream_extends f c
  | inputFile file o =>
    intro c; simp only [Stream.AddStream]; exact inputFile_AddStream_extends file o c
  | inputPtr p =>
    intro c
    cases p with
    | none => simp only [Stream.AddStream]; exact Cmd.Extends.refl c
    | some f => simp only [Stream.AddStream]; exact input_AddStream_extends f c
  | inputFilePtr p =>
    intro c
    cases p with
    | none => simp only [Stream.AddStream]; exact Cmd.Extends.refl c
    | some q => simp only [Stream.AddStream]; exact inputFile_AddStream_extends q.1 q.2 c
  | streamPortion s t ih =>
    intro c; simp only [Stream.AddStream]
    apply andThen_elim (fun x => c.Extends x.2)
    · intro _; exact ih c
    · intro _ _; exact ih c
  | optionalStream s ih =>
    intro c; simp only [Stream.AddStream]
    apply andThen_elim (fun x => c.Extends x.2)
    · intro _; exact ih c
    · intro _ _; exact ih c
  | splitFilter s flt n i ih =>
    intro c; simp only [Stream.AddStream]
    apply andThen_elim (fun x => c.Extends x.2)
    · intro _; exact ih c
    · intro _ _; exact (ih c).trans (Cmd.filterAt_extends _ _ _ _ _)
  | concatFilter ss v a i ih =>
    intro c; simp only [Stream.AddStream]
    have hs := Stream.AddStreams_extends_of ss ih c
    apply andThen_elim (fun x => c.Extends x.2)
    · intro _; exact hs
    · intro _ _; exact hs.trans (Cmd.filterAt_extends _ _ _ _ _)
  | simpFilter s flt ih =>
    intro c
    cases s <;> simp only [Stream.AddStream] <;>
      first
      | exact Cmd.filterAt_extends _ _ _ _ _
      | (apply andThen_elim (fun x => c.Extends x.2)
         · intro _; exact ih c
         · intro _ _; exact (ih c).trans (Cmd.filterAt_extends _ _ _ _ _))
  | aMix ss ih =>
    intro c; simp only [Stream.AddStream]
    have hs := Stream.AddStreams_extends_of ss ih c
    apply andThen_elim (fun x => c.Extends x.2)
    · intro _; exact hs
    · intro _ _; exact hs.trans (Cmd.filterAt_extends _ _ _ _ _)
  | overlay u o x y ihu iho =>
    intro c; simp only [Stream.AddStream]
    apply andThen_elim (fun x => c.Extends x.2)
    · intro _; exact ihu c
    · intro _ _
      have h2 := (ihu c).trans (iho (u.AddStream c).2)
      apply andThen_elim (fun x => c.Extends x.2)
      · intro _; exact h2
      · intro _ _; exact h2.trans (Cmd.filterAt_extends _ _ _ _ _)
  | paletteUse u o ihu iho =>
    intro c; simp only [Stream.AddStream]
    apply andThen_elim (fun x => c.Extends x.2)
    · intro _; exact ihu c
    · intro _ _
      have h2 := (ihu c).trans (iho (u.AddStream c).2)
      apply andThen_elim (fun x => c.Extends x.2)
      · intro _; exact h2
      · intro _ _; exact h2.trans (Cmd.filterAt_extends _ _ _ _ _)

theorem Stream.AddStreams_extends (ss : List Stream) (c : Cmd) :
    c.Extends (Stream.AddStreams ss c).2 :=
  Stream.AddStreams_extends_of ss (fun s _ => Stream.AddStream_extends s) c

/-! ## Invariants of the builder -/

section Preservation

variable {P : Cmd → Prop} {Q : Cmd → String → Prop}

theorem Preserved.filterAt (h : Preserved P Q) (c : Cmd) (ins : List String) (str : String)
    (n i : Int) (hc : P c) (hins : ∀ r ∈ ins, Q c r) : Good P Q (c.filterAt ins str n i) := by
  have hop := h.operator c ins str n hc hins
  unfold Cmd.filterAt
  apply andThen_elim (Good P Q)
  · intro _; exact ⟨hop.1, fun r hr => by cases hr⟩
  · intro out hout
    exact ⟨hop.1, fun r hr => hop.2 out hout r (index_mem hr)⟩

theorem Preserved.AddStreams (h : Preserved P Q) (ss : List Stream)
    (hs : ∀ s ∈ ss, ∀ c : Cmd, P c → Good P Q (s.AddStream c)) :
    ∀ c : Cmd, P c → GoodList P Q (Stream.AddStreams ss c) := by
  induction ss with
  | nil => intro c hc; simp only [Stream.AddStreams]; exact ⟨hc, fun rs hrs r hr => by simp_all⟩
  | cons s rest ih =>
    intro c hc
    simp only [Stream.AddStreams]
    have h1 := hs s (List.mem_cons_self _ _) c hc
    apply andThen_elim (GoodList P Q)
    · intro _; exact ⟨h1.1, fun rs hrs => by cases hrs⟩
    · intro r hr
      have h2 := ih (fun x hx => hs x (List.mem_cons_of_mem _ hx)) (s.AddStream c).2 h1.1
      apply andThen_elim (GoodList P Q)
      · intro _; exact ⟨h2.1, fun rs hrs => by cases hrs⟩
      · intro rs hrs
        refine ⟨h2.1, fun rs1 hrs1 x hx => ?_⟩
        simp only [Option.some.injEq] at hrs1
        subst hrs1
        rcases List.mem_cons.1 hx with rfl | hx
        · exact h.mono _ _ _ h1.1 (Stream.AddStreams_extends rest _) h2.1 (h1.2 _ hr)
        · exact h2.2 rs hrs x hx

/-- Node resolution keeps `P`, and the reference it returns has `Q`. -/
theorem Preserved.AddStream (h : Preserved P Q) (s : Stream) :
    ∀ c : Cmd, P c → Good P Q (s.AddStream c) := by
  have one : ∀ (s : Stream) (c : Cmd) (k : String → Cmd → Option String × Cmd),
      Good P Q (s.AddStream c) →
      (∀ r, (s.AddStream c).1 = some r → Good P Q (k r (s.AddStream c).2)) →
      Good P Q (andThen (s.AddStream c) k) := by
    intro s c k h1 h2
    apply andThen_elim (Good P Q)
    · intro _; exact ⟨h1.1, fun r hr => by cases hr⟩
    · intro r hr; exact h2 r hr
  have many : ∀ (ss : List Stream) (c : Cmd) (str : List String → String) (n i : Int),
      GoodList P Q (Stream.AddStreams ss c) →
      Good P Q (andThen (Stream.AddStreams ss c) (fun inputs c1 =>
        c1.filterAt inputs (str inputs) n i)) := by
    intro ss c str n i h1
    apply andThen_elim (Good P Q)
    · intro _; exact ⟨h1.1, fun r hr => by cases hr⟩
    · intro rs hrs; exact h.filterAt _ _ _ _ _ h1.1 (h1.2 rs hrs)
  have two : ∀ (u o : Stream) (c : Cmd) (str : String),
      (∀ c : Cmd, P c → Good P Q (u.AddStream c)) →
      (∀ c : Cmd, P c → Good P Q (o.AddStream c)) → P c →
      Good P Q (andThen (u.AddStream c) (fun r1 c1 =>
        andThen (o.AddStream c1) (fun r2 c2 => c2.filterAt [r1, r2] str 1 0))) := by
    intro u o c str ihu iho hc
    have h1 := ihu c hc
    refine one u c _ h1 (fun r1 hr1 => ?_)
    have h2 := iho (u.AddStream c).2 h1.1
    refine one o _ _ h2 (fun r2 hr2 => ?_)
    refine h.filterAt _ _ _ _ _ h2.1 (fun r hr => ?_)
    simp only [List.mem_cons, List.mem_singleton, List.not_mem_nil, or_false] at hr
    rcases hr with rfl | rfl
    · exact h.mono _ _ _ h1.1 (Stream.AddStream_extends o _) h2.1 (h1.2 _ hr1)
    · exact h2.2 _ hr2
  induction s using Stream.ind with
  | nil => intro c hc; simp only [Stream.AddStream]; exact ⟨hc, fun r hr => by cases hr⟩
  | input f =>
    intro c hc; simp only [Stream.AddStream]
    exact ⟨(h.source f c hc).1, fun r hr => by cases hr; exact (h.source f c hc).2⟩
  | inputFile file o =>
    intro c hc; simp only [Stream.AddStream]
    have h1 := h.source ⟨"/dev/fd/" ++ Itoa (↑(c.addExtraFile file).1 + 3), o⟩
      (c.addExtraFile file).2 (h.file file c hc)
    exact ⟨h1.1, fun r hr => by cases hr; exact h1.2⟩
  | inputPtr p =>
    intro c hc
    cases p with
    | none => simp only [Stream.AddStream]; exact ⟨hc, fun r hr => by cases hr⟩
    | some f =>
      simp only [Stream.AddStream]
      exact ⟨(h.source f c hc).1, fun r hr => by cases hr; exact (h.source f c hc).2⟩
  | inputFilePtr p =>
    intro c hc
    cases p with
    | none => simp only [Stream.AddStream]; exact ⟨hc, fun r hr => by cases hr⟩
    | some q =>
      simp only [Stream.AddStream]
      have h1 := h.source ⟨"/dev/fd/" ++ Itoa (↑(c.addExtraFile q.1).1 + 3), q.2⟩
        (c.addExtraFile q.1).2 (h.file q.1 c hc)
      exact ⟨h1.1, fun r hr => by cases hr; exact h1.2⟩
  | streamPortion s t ih =>
    intro c hc; simp only [Stream.AddStream]
    exact one s c _ (ih c hc) (fun r hr =>
      ⟨(ih c hc).1, fun r1 hr1 => by cases hr1; exact h.portion _ _ _ (ih c hc).1 ((ih c hc).2 r hr)⟩)
  | optionalStream s ih =>
    intro c hc; simp only [Stream.AddStream]
    exact one s c _ (ih c hc) (fun r hr =>
      ⟨(ih c hc).1, fun r1 hr1 => by cases hr1; exact h.optional _ _ (ih c hc).1 ((ih c hc).2 r hr)⟩)
  | splitFilter s flt n i ih =>
    intro c hc; simp only [Stream.AddStream]
    exact one s c _ (ih c hc) (fun r hr =>
      h.filterAt _ _ _ _ _ (ih c hc).1 (fun x hx => by
        rw [List.mem_singleton] at hx; subst hx; exact (ih c hc).2 _ hr))
  | concatFilter ss v a i ih =>
    intro c hc; simp only [Stream.AddStream]
    exact many ss c _ _ _ (h.AddStreams ss ih c hc)
  | simpFilter s flt ih =>
    intro c hc
    have hgen : Good P Q (andThen (s.AddStream c) (fun r c1 => c1.filterAt [r] flt 1 0)) :=
      one s c _ (ih c hc) (fun r hr =>
        h.filterAt _ _ _ _ _ (ih c hc).1 (fun x hx => by
          rw [List.mem_singleton] at hx; subst hx; exact (ih c hc).2 _ hr))
    cases s
    case nil =>
      simp only [Stream.AddStream]
      exact h.filterAt _ _ _ _ _ hc (fun r hr => by cases hr)
    all_goals simp only [Stream.AddStream] at hgen ⊢
    all_goals exact hgen
  | aMix ss ih =>
    intro c hc; simp only [Stream.AddStream]
    exact many ss c (fun inputs => "amix=inputs=" ++ Itoa inputs.length ++ ":duration=shortest")
      _ _ (h.AddStreams ss ih c hc)
  | overlay u o x y ihu iho =>
    intro c hc; simp only [Stream.AddStream]
    exact two u o c _ ihu iho hc
  | paletteUse u o ihu iho =>
    intro c hc; simp only [Stream.AddStream]
    exact two u o c _ ihu iho hc

end Preservation

section Reach

variable {P : Cmd → Prop} {Q : Cmd → String → Prop}

theorem addSels_extends (ss : List Stream) : ∀ c : Cmd, c.Extends (Cmd.addSels ss c).2 := by
  induction ss with
  | nil => intro c; simp only [Cmd.addSels]; exact Cmd.Extends.refl c
  | cons s rest ih =>
    intro c
    simp only [Cmd.addSels]
    have hs := Stream.AddStream_extends s c
    apply andThen_elim (fun x => c.Extends x.2)
    · intro _; exact hs
    · intro r _
      have hr := ih (s.AddStream c).2
      apply andThen_elim (fun x => c.Extends x.2)
      · intro _; exact hs.trans hr
      · intro _ _; exact hs.trans hr

theorem Preserved.addSels (h : Preserved P Q) (ss : List Stream) :
    ∀ c : Cmd, P c → GoodSels P Q (Cmd.addSels ss c) := by
  induction ss with
  | nil => intro c hc; simp only [Cmd.addSels]; exact ⟨hc, fun rs hrs r hr => by simp_all⟩
  | cons s rest ih =>
    intro c hc
    simp only [Cmd.addSels]
    have h1 := h.AddStream s c hc
    apply andThen_elim (GoodSels P Q)
    · intro _; exact ⟨h1.1, fun rs hrs => by cases hrs⟩
    · intro r hr
      have h2 := ih (s.AddStream c).2 h1.1
      apply andThen_elim (GoodSels P Q)
      · intro _; exact ⟨h2.1, fun rs hrs => by cases hrs⟩
      · intro rs hrs
        refine ⟨h2.1, fun rs1 hrs1 x hx => ?_⟩
        simp only [Option.some.injEq] at hrs1
        subst hrs1
        rcases List.mem_cons.1 hx with rfl | hx
        · refine ⟨r, h.mono _ _ _ h1.1 (addSels_extends rest _) h2.1 (h1.2 _ hr), ?_⟩
          by_cases hi : IsInputStream s = true
          · left; simp [hi]
          · right; simp [hi]
        · exact h2.2 rs hrs x hx

theorem Preserved.AddOutput (h : Preserved P Q) (c : Cmd) (name : String)
    (options : List String) (streams : List Stream) (hc : P c) :
    P (c.AddOutput name options streams).2 := by
  have h1 := h.addSels streams c hc
  unfold Cmd.AddOutput
  apply andThen_elim (fun x : Option Unit × Cmd => P x.2)
  · intro _; exact h1.1
  · intro sels hsels; exact h.sink _ name options sels h1.1 (h1.2 sels hsels)

theorem Preserved.AddFileOutput (h : Preserved P Q) (c : Cmd) (file : File)
    (options : List String) (streams : List Stream) (hc : P c) :
    P (c.AddFileOutput file options streams).2 :=
  h.AddOutput _ _ _ _ (h.file file c hc)

/-- A property kept by the primitive steps and true of the empty context holds
in every reachable context. -/
theorem Preserved.reachable (h : Preserved P Q) (h0 : P Cmd.empty) :
    ∀ c : Cmd, Reachable c → P c := by
  intro c hc
  induction hc with
  | empty => exact h0
  | addStream s _ ih => exact (h.AddStream s _ ih).1
  | addOutput name options streams _ ih => exact h.AddOutput _ name options streams ih
  | addFileOutput file options streams _ ih => exact h.AddFileOutput _ file options streams ih

end Reach

/-! ## Generated names -/

theorem Itoa_natCast (k : Nat) : Itoa (k : Int) = Nat.repr k := rfl

theorem genName_data (k : Nat) : (genName k).data = 's' :: (Nat.repr k).data := by
  simp [genName, Itoa_natCast]

theorem genName_injective : Function.Injective genName := by
  intro a b h
  have h1 := congrArg String.data h
  rw [genName_data, genName_data] at h1
  exact repr_injective (String.ext (List.cons.inj h1).2)

theorem outNames_append (fs gs : List filter) : outNames (fs ++ gs) = outNames fs ++ outNames gs := by
  simp [outNames]

theorem outNames_singleton (f : filter) : outNames [f] = f.Out := by
  simp [outNames]

theorem Input.AddStream_filters (f : Input) (c : Cmd) :
    (f.AddStream c).2.filters = c.filters ∧ (f.AddStream c).2.ns = c.ns ∧
      (f.AddStream c).2.extraFiles = c.extraFiles ∧ (f.AddStream c).2.outputs = c.outputs := by
  unfold Input.AddStream
  split <;> simp

theorem addExtraFile_filters (c : Cmd) (file : File) :
    (c.addExtraFile file).2.filters = c.filters ∧ (c.addExtraFile file).2.ns = c.ns ∧
      (c.addExtraFile file).2.inputFiles = c.inputFiles ∧
      (c.addExtraFile file).2.outputs = c.outputs := by
  unfold Cmd.addExtraFile
  split <;> simp

/-- The three outcomes of `Cmd.filter`. -/
theorem filter_cases (c : Cmd) (ins : List String) (str : String) (n : Int) :
    (∃ out, filter.search ins str n c.filters = some out ∧ c.filter ins str n = (some out, c)) ∨
    (filter.search ins str n c.filters = none ∧ n < 0 ∧ c.filter ins str n = (none, c)) ∨
    (filter.search ins str n c.filters = none ∧ 0 ≤ n ∧
      c.filter ins str n =
        (some ((List.range n.toNat).map (fun i => genName (c.ns + i))),
          { c with
            filters := c.filters ++ [⟨ins, str, (List.range n.toNat).map (fun i => genName (c.ns + i))⟩],
            ns := c.ns + n.toNat })) := by
  unfold Cmd.filter
  cases hs : filter.search ins str n c.filters with
  | some out => left; exact ⟨out, rfl, rfl⟩
  | none =>
    right
    by_cases hn : n < 0
    · left; simp [hn]
    · right; simp [hn, genNames_eq]; omega

theorem namesInv_preserved : Preserved NamesInv (fun _ _ => True) where
  mono := fun _ _ _ _ _ _ _ => trivial
  source := fun f c hc => by
    have h := Input.AddStream_filters f c
    refine ⟨?_, trivial⟩
    unfold NamesInv at *
    rw [h.1, h.2.1]; exact hc
  file := fun file c hc => by
    have h := addExtraFile_filters c file
    unfold NamesInv at *
    rw [h.1, h.2.1]; exact hc
  portion := fun _ _ _ _ _ => trivial
  optional := fun _ _ _ _ => trivial
  operator := fun c ins str n hc _ => by
    refine ⟨?_, fun _ _ _ _ => trivial⟩
    rcases filter_cases c ins str n with ⟨out, _, h⟩ | ⟨_, _, h⟩ | ⟨_, _, h⟩
    · rw [h]; exact hc
    · rw [h]; exact hc
    · rw [h]
      unfold NamesInv at *
      simp only [outNames_append, outNames_singleton, hc, List.range_add, List.map_append,
        List.map_map]
      rfl
  sink := fun c _ _ _ hc _ => hc

theorem range_genName_nodup (n : Nat) : ((List.range n).map genName).Nodup :=
  (List.nodup_range n).map genName_injective

/-! ## The operator search -/

theorem sliceMismatch_eq_false : ∀ (xs ys : List String), xs.length = ys.length →
    (sliceMismatch xs ys = false ↔ xs = ys)
  | [], [], _ => by simp [sliceMismatch]
  | [], _ :: _, h => by simp at h
  | _ :: _, [], h => by simp at h
  | x :: xs, y :: ys, h => by
    have ih := sliceMismatch_eq_false xs ys (by simpa using h)
    by_cases hxy : y = x
    · subst hxy; simp [sliceMismatch, ih]
    · have hxy2 : ¬ x = y := fun e => hxy e.symm
      simp [sliceMismatch, hxy, hxy2]

theorem filter.search_cons (ins : List String) (str : String) (n : Int) (f : filter)
    (rest : List filter) :
    filter.search ins str n (f :: rest) =
      if f.Matches ins str n then some f.Out else filter.search ins str n rest := by
  unfold filter.Matches
  rw [filter.search]
  by_cases h1 : f.Str = str
  · by_cases h2 : ins.length = f.In.length
    · by_cases h3 : (f.Out.length : Int) = n
      · have h4 := sliceMismatch_eq_false f.In ins h2.symm
        by_cases h5 : f.In = ins
        · have h6 := h4.2 h5
          rw [h5] at h6
          simp [h1, h3, h5, h6]
        · have h6 : sliceMismatch f.In ins = true := by
            cases h7 : sliceMismatch f.In ins
            · exact absurd (h4.1 h7) h5
            · rfl
          simp [h1, h2, h3, h5, h6]
      · simp [h1, h2, h3]
    · have h5 : ¬ f.In = ins := fun e => h2 (by rw [e])
      simp [h1, h2, h5]
  · simp [h1]

theorem filter.search_eq_none (ins : List String) (str : String) (n : Int) (fs : List filter) :
    filter.search ins str n fs = none ↔ ∀ f ∈ fs, ¬ f.Matches ins str n := by
  induction fs with
  | nil => simp [filter.search]
  | cons f rest ih =>
    rw [filter.search_cons]
    by_cases h : f.Matches ins str n
    · simp [h]
    · simp [h, ih]

/-- A successful search returns the output names of the first entry with the key. -/
theorem filter.search_eq_some (ins : List String) (str : String) (n : Int) (fs : List filter)
    (out : List String) :
    filter.search ins str n fs = some out ↔
      ∃ pre f post, fs = pre ++ f :: post ∧ (∀ x ∈ pre, ¬ x.Matches ins str n) ∧
        f.Matches ins str n ∧ out = f.Out := by
  induction fs with
  | nil => simp [filter.search]
  | cons f rest ih =>
    rw [filter.search_cons]
    by_cases h : f.Matches ins str n
    · simp only [h, if_true, Option.some.injEq]
      constructor
      · intro e; exact ⟨[], f, rest, rfl, by simp, h, e.symm⟩
      · rintro ⟨pre, g, post, e, hpre, _, hout⟩
        cases pre with
        | nil => simp only [List.nil_append, List.cons.injEq] at e; rw [hout, e.1]
        | cons p pre =>
          simp only [List.cons_append, List.cons.injEq] at e
          exact absurd (e.1 ▸ h) (hpre p (List.mem_cons_self _ _))
    · simp only [h, if_false, ih]
      constructor
      · rintro ⟨pre, g, post, e, hpre, hg, hout⟩
        refine ⟨f :: pre, g, post, by simp [e], ?_, hg, hout⟩
        intro x hx
        rcases List.mem_cons.1 hx with rfl | hx
        · exact h
        · exact hpre x hx
      · rintro ⟨pre, g, post, e, hpre, hg, hout⟩
        cases pre with
        | nil =>
          simp only [List.nil_append, List.cons.injEq] at e
          exact absurd (e.1 ▸ hg) h
        | cons p pre =>
          simp only [List.cons_append, List.cons.injEq] at e
          exact ⟨pre, g, post, e.2, fun x hx => hpre x (List.mem_cons_of_mem _ hx), hg, hout⟩

theorem keysInv_preserved : Preserved KeysInv (fun _ _ => True) where
  mono := fun _ _ _ _ _ _ _ => trivial
  source := fun f c hc => by
    have h := Input.AddStream_filters f c
    refine ⟨?_, trivial⟩
    unfold KeysInv at *
    rw [h.1]; exact hc
  file := fun file c hc => by
    have h := addExtraFile_filters c file
    unfold KeysInv at *
    rw [h.1]; exact hc
  portion := fun _ _ _ _ _ => trivial
  optional := fun _ _ _ _ => trivial
  operator := fun c ins str n hc _ => by
    refine ⟨?_, fun _ _ _ _ => trivial⟩
    rcases filter_cases c ins str n with ⟨out, _, h⟩ | ⟨_, _, h⟩ | ⟨hs, hn, h⟩
    · rw [h]; exact hc
    · rw [h]; exact hc
    · rw [h]
      unfold KeysInv at *
      simp only [List.pairwise_append, hc, List.pairwise_singleton, List.mem_singleton,
        true_and, forall_eq]
      intro a ha hm
      rw [filter.search_eq_none] at hs
      apply hs a ha
      unfold filter.Matches at hm ⊢
      simp only [List.length_map, List.length_range] at hm
      refine ⟨hm.1.symm, hm.2.1.symm, ?_⟩
      rw [← hm.2.2]; omega
  sink := fun c _ _ _ hc _ => hc

/-! ## References -/

theorem isDigit_ne_suffixStart (ch : Char) (h : ch.isDigit = true) : ch ≠ ':' ∧ ch ≠ '?' := by
  constructor <;> (rintro rfl; revert h; decide)

theorem isDigit_ne_s (ch : Char) (h : ch.isDigit = true) : ch ≠ 's' := by
  rintro rfl; revert h; decide

theorem Input.AddStream_ref (f : Input) (c : Cmd) : ∃ i : Nat, (f.AddStream c).1 = Itoa i := by
  unfold Input.AddStream
  split
  · exact ⟨_, rfl⟩
  · exact ⟨_, rfl⟩

theorem outNames_mono {fs gs : List filter} (h : fs <+: gs) {x : String} (hx : x ∈ outNames fs) :
    x ∈ outNames gs := by
  obtain ⟨t, rfl⟩ := h
  rw [outNames_append]
  exact List.mem_append_left _ hx

theorem RefIn.mono {fs gs : List filter} (h : fs <+: gs) {r : String} (hr : RefIn fs r) :
    RefIn gs r := by
  obtain ⟨base, suf, e, hs, hb⟩ := hr
  refine ⟨base, suf, e, hs, ?_⟩
  rcases hb with hb | hb
  · exact Or.inl hb
  · exact Or.inr (outNames_mono h hb)

theorem RefIn.suffix {fs : List filter} {r : String} (hr : RefIn fs r) (ch : Char) (t : String)
    (hch : ch = ':' ∨ ch = '?') : RefIn fs (r ++ (String.singleton ch ++ t)) := by
  obtain ⟨base, suf, e, hs, hb⟩ := hr
  refine ⟨base, suf ++ (String.singleton ch ++ t), by rw [e, String.append_assoc], Or.inr ?_, hb⟩
  rcases hs with rfl | ⟨c0, rest, hd, hc0⟩
  · exact ⟨ch, t.data, by simp [String.singleton], hch⟩
  · exact ⟨c0, rest ++ (String.singleton ch ++ t).data, by simp [hd], hc0⟩

theorem RefIn.of_mem {fs : List filter} {r : String} (hr : r ∈ outNames fs) : RefIn fs r :=
  ⟨r, "", by simp, Or.inl rfl, Or.inr hr⟩

theorem append_singleton_eq {α : Type} {l pre post : List α} {a f : α}
    (h : l ++ [a] = pre ++ f :: post) :
    (pre = l ∧ f = a ∧ post = []) ∨ ∃ post1, post = post1 ++ [a] ∧ l = pre ++ f :: post1 := by
  rcases List.eq_nil_or_concat post with rfl | ⟨post1, b, rfl⟩
  · left
    have h1 : l ++ [a] = pre ++ [f] := h
    have h2 := List.append_inj' h1 rfl
    simp only [List.cons.injEq, and_true] at h2
    exact ⟨h2.1.symm, h2.2.symm, rfl⟩
  · right
    have h1 : l ++ [a] = (pre ++ f :: post1) ++ [b] := by simp [h]
    have h2 := List.append_inj' h1 rfl
    simp only [List.cons.injEq, and_true] at h2
    exact ⟨post1, by rw [h2.2, List.concat_eq_append], h2.1⟩

theorem search_some_mem {ins : List String} {str : String} {n : Int} {fs : List filter}
    {out : List String} (h : filter.search ins str n fs = some out) {r : String} (hr : r ∈ out) :
    r ∈ outNames fs := by
  obtain ⟨pre, f, post, e, _, _, ho⟩ := (filter.search_eq_some ins str n fs out).1 h
  subst e ho
  simp only [outNames, List.map_append, List.map_cons, List.flatten_append, List.flatten_cons,
    List.mem_append]
  exact Or.inr (Or.inl hr)

theorem topoInv_preserved : Preserved TopoInv (fun c r => RefIn c.filters r) where
  mono := fun _ _ _ _ he _ hr => hr.mono he.filters
  source := fun f c hc => by
    have h := Input.AddStream_filters f c
    obtain ⟨i, hi⟩ := Input.AddStream_ref f c
    refine ⟨?_, ⟨_, "", by simp, Or.inl rfl, Or.inl ⟨i, hi⟩⟩⟩
    unfold TopoInv at *
    rw [h.1]; exact hc
  file := fun file c hc => by
    have h := addExtraFile_filters c file
    unfold TopoInv at *
    rw [h.1]; exact hc
  portion := fun c r t _ hr => by
    have h := hr.suffix ':' t (Or.inl rfl)
    have e : r ++ ":" ++ t = r ++ (String.singleton ':' ++ t) := by
      rw [String.append_assoc]; rfl
    rw [e]; exact h
  optional := fun c r _ hr => by
    have h := hr.suffix '?' "" (Or.inr rfl)
    have e : r ++ "?" = r ++ (String.singleton '?' ++ "") := by
      rw [String.append_empty]; rfl
    rw [e]; exact h
  operator := fun c ins str n hc hins => by
    rcases filter_cases c ins str n with ⟨out, hs, h⟩ | ⟨_, _, h⟩ | ⟨hs, hn, h⟩
    · rw [h]
      refine ⟨hc, fun out1 ho r hr => ?_⟩
      simp only [Option.some.injEq] at ho
      subst ho
      exact RefIn.of_mem (search_some_mem hs hr)
    · rw [h]
      exact ⟨hc, fun out1 ho => by cases ho⟩
    · rw [h]
      refine ⟨?_, fun out1 ho r hr => ?_⟩
      · intro pre f post e r hr
        rcases append_singleton_eq e with ⟨rfl, rfl, _⟩ | ⟨post1, _, e1⟩
        · exact hins r hr
        · exact hc pre f post1 e1 r hr
      · simp only [Option.some.injEq] at ho
        subst ho
        apply RefIn.of_mem
        rw [outNames_append, outNames_singleton]
        exact List.mem_append_right _ hr
  sink := fun c _ _ _ hc _ => hc

theorem takeWhile_append_stop {α : Type} (p : α → Bool) : ∀ (b s : List α),
    (∀ x ∈ b, p x = true) → (s = [] ∨ ∃ y rest, s = y :: rest ∧ p y = false) →
    (b ++ s).takeWhile p = b
  | [], s, _, hs => by
    rcases hs with rfl | ⟨y, rest, rfl, hy⟩
    · rfl
    · simp [List.takeWhile, hy]
  | x :: b, s, hb, hs => by
    have hx : p x = true := hb x (List.mem_cons_self _ _)
    have ih := takeWhile_append_stop p b s (fun y hy => hb y (List.mem_cons_of_mem _ hy)) hs
    simp [List.takeWhile, hx, ih]

theorem refBase_append (base suf : String) (hb : ∀ ch ∈ base.data, ch ≠ ':' ∧ ch ≠ '?')
    (hs : suf = "" ∨ ∃ ch rest, suf.data = ch :: rest ∧ (ch = ':' ∨ ch = '?')) :
    refBase (base ++ suf) = base := by
  unfold refBase
  apply String.ext
  simp only [String.data_append]
  apply takeWhile_append_stop
  · intro x hx
    have := hb x hx
    simp [this.1, this.2]
  · rcases hs with rfl | ⟨ch, rest, hd, hch⟩
    · exact Or.inl rfl
    · refine Or.inr ⟨ch, rest, hd, ?_⟩
      rcases hch with rfl | rfl <;> decide

theorem Itoa_nat_chars (i : Nat) : ∀ ch ∈ (Itoa (i : Int)).data, ch.isDigit = true := by
  rw [Itoa_natCast]; exact repr_digits i

theorem genName_chars (m : Nat) : ∀ ch ∈ (genName m).data, ch ≠ ':' ∧ ch ≠ '?' := by
  intro ch hch
  rw [genName_data] at hch
  rcases List.mem_cons.1 hch with rfl | hch
  · constructor <;> decide
  · exact isDigit_ne_suffixStart ch (repr_digits m ch hch)

theorem Itoa_nat_ne_genName (i m : Nat) : Itoa (i : Int) ≠ genName m := by
  intro h
  have h1 := congrArg String.data h
  rw [genName_data, Itoa_natCast] at h1
  have h2 := repr_digits i 's' (by rw [h1]; exact List.mem_cons_self _ _)
  exact absurd h2 (by decide)

theorem NamesInv.mem {c : Cmd} (h : NamesInv c) {x : String} (hx : x ∈ outNames c.filters) :
    ∃ m, m < c.ns ∧ x = genName m := by
  rw [h] at hx
  obtain ⟨m, hm, e⟩ := List.mem_map.1 hx
  exact ⟨m, List.mem_range.1 hm, e.symm⟩

theorem NamesInv.nodup {c : Cmd} (h : NamesInv c) : (outNames c.filters).Nodup := by
  rw [h]; exact range_genName_nodup _

theorem reachable_namesInv {c : Cmd} (hc : Reachable c) : NamesInv c :=
  namesInv_preserved.reachable (by simp [NamesInv, Cmd.empty, outNames]) c hc

theorem reachable_keysInv {c : Cmd} (hc : Reachable c) : KeysInv c :=
  keysInv_preserved.reachable (by simp [KeysInv, Cmd.empty]) c hc

theorem reachable_topoInv {c : Cmd} (hc : Reachable c) : TopoInv c :=
  topoInv_preserved.reachable (by intro pre f post e; simp [Cmd.empty] at e) c hc

theorem getElem?_split {α : Type} {l : List α} {k : Nat} {a : α} (h : l[k]? = some a) :
    ∃ pre post, l = pre ++ a :: post ∧ pre.length = k := by
  obtain ⟨hk, e⟩ := List.getElem?_eq_some.1 h
  refine ⟨l.take k, l.drop (k + 1), ?_, by simp; omega⟩
  rw [← e, ← List.drop_eq_getElem_cons hk, List.take_append_drop]

theorem mem_outNames_of_mem {fs : List filter} {f : filter} (hf : f ∈ fs) {x : String}
    (hx : x ∈ f.Out) : x ∈ outNames fs := by
  simp only [outNames, List.mem_flatten, List.mem_map]
  exact ⟨f.Out, ⟨f, hf, rfl⟩, hx⟩

/-- Core of the topological order: an input of the entry after `pre` whose base
is an output name of `c` has that name among the outputs of `pre` only. -/
theorem topo_core {c : Cmd} (hn : NamesInv c) (ht : TopoInv c) {pre post : List filter}
    {f : filter} (e : c.filters = pre ++ f :: post) {r : String} (hr : r ∈ f.In)
    (hb : refBase r ∈ outNames c.filters) :
    refBase r ∈ outNames pre ∧ refBase r ∉ outNames (f :: post) := by
  obtain ⟨base, suf, er, hs, hbase⟩ := ht pre f post e r hr
  have hpre : pre <+: c.filters := ⟨f :: post, e.symm⟩
  rcases hbase with ⟨i, hi⟩ | hmem
  · have h1 : refBase r = base := by
      rw [er]; apply refBase_append _ _ _ hs
      intro ch hch; rw [hi] at hch
      exact isDigit_ne_suffixStart ch (Itoa_nat_chars i ch hch)
    rw [h1] at hb
    obtain ⟨m, _, hm⟩ := hn.mem hb
    exact absurd (hi ▸ hm) (Itoa_nat_ne_genName i m)
  · obtain ⟨m, _, hm⟩ := hn.mem (outNames_mono hpre hmem)
    have h1 : refBase r = base := by
      rw [er]; apply refBase_append _ _ _ hs
      rw [hm]; exact genName_chars m
    rw [h1]
    refine ⟨hmem, fun h2 => ?_⟩
    have hnd := hn.nodup
    rw [e, outNames_append] at hnd
    exact (List.nodup_append.1 hnd).2.2 hmem h2

/-! ## Settled claims -/

theorem filter.search_append_of_none {ins : List String} {str : String} {n : Int}
    {fs : List filter} (h : filter.search ins str n fs = none) (gs : List filter) :
    filter.search ins str n (fs ++ gs) = filter.search ins str n gs := by
  induction fs with
  | nil => rfl
  | cons f rest ih =>
    rw [filter.search_cons] at h
    by_cases hm : f.Matches ins str n
    · simp [hm] at h
    · simp only [hm, if_false] at h
      rw [List.cons_append, filter.search_cons, if_neg hm, ih h]

theorem filter_twice (c : Cmd) (ins : List String) (str : String) (n : Int) :
    (c.filter ins str n).2.filter ins str n = c.filter ins str n := by
  rcases filter_cases c ins str n with ⟨out, hs, h⟩ | ⟨hs, hn, h⟩ | ⟨hs, hn, h⟩
  · rw [h]; exact h
  · rw [h]; exact h
  · rw [h]
    simp only
    rw [Cmd.filter]
    simp only
    rw [filter.search_append_of_none hs, filter.search_cons, if_pos]
    unfold filter.Matches
    simp only [List.length_map, List.length_range, true_and]
    omega

theorem keysInv_unique {c : Cmd} (hk : KeysInv c) {ins : List String} {str : String} {n : Int}
    {e f : filter} (he : e ∈ c.filters) (hf : f ∈ c.filters) (hme : e.Matches ins str n)
    (hmf : f.Matches ins str n) : e = f := by
  by_contra hne
  have hsym : Symmetric (fun a b : filter => ¬ b.Matches a.In a.Str a.Out.length) := by
    intro a b hab hba
    apply hab
    unfold filter.Matches at *
    exact ⟨hba.1.symm, hba.2.1.symm, hba.2.2.symm⟩
  apply List.Pairwise.forall hsym hk he hf hne
  unfold filter.Matches at *
  exact ⟨hmf.1.trans hme.1.symm, hmf.2.1.trans hme.2.1.symm, hmf.2.2.trans hme.2.2.symm⟩

/-- C1, at the failing input.  The context whose sources are `a` with option
`x` and then `a` with option `y` is reachable, it holds an entry equal to the
source `a` with option `y`, and resolving that source in it does not return the
position `1` of this entry: the search stops at the first entry, the source is
appended a second time and `2` is returned. -/
theorem source_lookup_stops_at_mismatch :
    Reachable { inputFiles := [⟨"a", ["x"]⟩, ⟨"a", ["y"]⟩] } ∧
    (⟨"a", ["y"]⟩ : Input) ∈ [(⟨"a", ["x"]⟩ : Input), ⟨"a", ["y"]⟩] ∧
    Input.AddStream ⟨"a", ["y"]⟩ { inputFiles := [⟨"a", ["x"]⟩, ⟨"a", ["y"]⟩] } =
      ("2", { inputFiles := [⟨"a", ["x"]⟩, ⟨"a", ["y"]⟩, ⟨"a", ["y"]⟩] }) := by
  refine ⟨?_, by decide, by decide⟩
  have h := Reachable.addStream (.input ⟨"a", ["y"]⟩)
    (Reachable.addStream (.input ⟨"a", ["x"]⟩) Reachable.empty)
  exact h

/-- C2, at the failing input.  The two outputs of `SplitN(s, 2)` for
`s = Overlay(a with option x, a with option y, 0, 0)`, resolved in order from
the empty context, give `s1` and `s5`: the second resolution registers the
source `a` with option `y` again, hence a second overlay and a second
`split=2`, so the two references are outputs of two operator applications. -/
theorem split_outputs_of_two_applications :
    SplitN (Overlay (.input ⟨"a", ["x"]⟩) (.input ⟨"a", ["y"]⟩) 0 0) 2 =
      some [.splitFilter (Overlay (.input ⟨"a", ["x"]⟩) (.input ⟨"a", ["y"]⟩) 0 0) "split" 2 0,
        .splitFilter (Overlay (.input ⟨"a", ["x"]⟩) (.input ⟨"a", ["y"]⟩) 0 0) "split" 2 1] ∧
    Stream.AddStream
        (.splitFilter (Overlay (.input ⟨"a", ["x"]⟩) (.input ⟨"a", ["y"]⟩) 0 0) "split" 2 0)
        Cmd.empty =
      (some "s1",
        { inputFiles := [⟨"a", ["x"]⟩, ⟨"a", ["y"]⟩],
          filters := [⟨["0", "1"], "overlay=0:0", ["s0"]⟩, ⟨["s0"], "split=2", ["s1", "s2"]⟩],
          ns := 3 }) ∧
    Stream.AddStream
        (.splitFilter (Overlay (.input ⟨"a", ["x"]⟩) (.input ⟨"a", ["y"]⟩) 0 0) "split" 2 1)
        { inputFiles := [⟨"a", ["x"]⟩, ⟨"a", ["y"]⟩],
          filters := [⟨["0", "1"], "overlay=0:0", ["s0"]⟩, ⟨["s0"], "split=2", ["s1", "s2"]⟩],
          ns := 3 } =
      (some "s5",
        { inputFiles := [⟨"a", ["x"]⟩, ⟨"a", ["y"]⟩, ⟨"a", ["y"]⟩],
          filters := [⟨["0", "1"], "overlay=0:0", ["s0"]⟩, ⟨["s0"], "split=2", ["s1", "s2"]⟩,
            ⟨["0", "2"], "overlay=0:0", ["s3"]⟩, ⟨["s3"], "split=2", ["s4", "s5"]⟩],
          ns := 6 }) := by
  refine ⟨rfl, by decide, by decide⟩

/-- C3 (topological order).  In a reachable context, take the operator
application at position `k` and one of its input references `r`.  If `r`,
without its stream-type and optional suffixes, is an output name of the
application at position `j`, then `j < k`. -/
theorem topological_order (c : Cmd) (hc : Reachable c) (k j : Nat) (fk fj : filter)
    (hk : c.filters[k]? = some fk) (hj : c.filters[j]? = some fj) (r : String)
    (hr : r ∈ fk.In) (hb : refBase r ∈ fj.Out) : j < k := by
  obtain ⟨pre, post, e, hlen⟩ := getElem?_split hk
  have hfj : fj ∈ c.filters := List.getElem?_mem hj
  have h := topo_core (reachable_namesInv hc) (reachable_topoInv hc) e hr
    (mem_outNames_of_mem hfj hb)
  by_contra hjk
  apply h.2
  have h2 : (fk :: post)[j - k]? = some fj := by
    rw [e, List.getElem?_append_right (by omega), hlen] at hj
    exact hj
  exact mem_outNames_of_mem (List.getElem?_mem h2) hb

/-- Witness of C3: after resolving `Hflip(Hflip(A))` the operator list is
`[0]hflip[s0]`, `[s0]hflip[s1]`; the input `s0` of position 1 names an output of
position 0. -/
theorem topological_order_witness :
    Reachable (Stream.AddStream (Hflip (Hflip (.input ⟨"A", []⟩))) Cmd.empty).2 ∧
    (Stream.AddStream (Hflip (Hflip (.input ⟨"A", []⟩))) Cmd.empty).2.filters =
      [⟨["0"], "hflip", ["s0"]⟩, ⟨["s0"], "hflip", ["s1"]⟩] ∧
    refBase "s0" = "s0" ∧ (0 : Nat) < 1 :=
  ⟨Reachable.addStream _ Reachable.empty, by decide, by decide,
    topological_order (Stream.AddStream (Hflip (Hflip (.input ⟨"A", []⟩))) Cmd.empty).2
      (Reachable.addStream _ Reachable.empty) 1 0 ⟨["s0"], "hflip", ["s1"]⟩
      ⟨["0"], "hflip", ["s0"]⟩ (by decide) (by decide) "s0" (by decide) (by decide)⟩

/-- C4 (operator dedup).  For an arity `n ≥ 0`: if the operator list of `c`
holds an entry `e` with operator string `str`, inputs `ins` and `n` output
names, then `Cmd.filter(ins, str, n)` leaves `c` unchanged and returns the
output names of the first such entry, which in a reachable context is `e`
itself; and a second call in a row with the same arguments returns the same
names and changes nothing. -/
theorem operator_dedup (c : Cmd) (ins : List String) (str : String) (n : Int) (_hn : 0 ≤ n) :
    (∀ e ∈ c.filters, e.Matches ins str n →
      (c.filter ins str n).2 = c ∧
      (∃ pre f post, c.filters = pre ++ f :: post ∧ (∀ x ∈ pre, ¬ x.Matches ins str n) ∧
        f.Matches ins str n ∧ (c.filter ins str n).1 = some f.Out) ∧
      (Reachable c → c.filter ins str n = (some e.Out, c))) ∧
    (c.filter ins str n).2.filter ins str n = c.filter ins str n := by
  refine ⟨fun e he hm => ?_, filter_twice c ins str n⟩
  rcases filter_cases c ins str n with ⟨out, hs, h⟩ | ⟨hs, _, _⟩ | ⟨hs, _, _⟩
  · obtain ⟨pre, f, post, e1, hpre, hf, ho⟩ := (filter.search_eq_some ins str n c.filters out).1 hs
    refine ⟨by rw [h], ⟨pre, f, post, e1, hpre, hf, by rw [h, ho]⟩, fun hc => ?_⟩
    have hfm : f ∈ c.filters := by rw [e1]; simp
    rw [h, ho, keysInv_unique (reachable_keysInv hc) he hfm hm hf]
  · exact absurd hm ((filter.search_eq_none ins str n c.filters).1 hs e he)
  · exact absurd hm ((filter.search_eq_none ins str n c.filters).1 hs e he)

/-- Witness of C4: in the context reached by resolving `Hflip(A)`, the call
`filter(["0"], "hflip", 1)` finds the entry `[0]hflip[s0]`. -/
theorem operator_dedup_witness :
    (0 : Int) ≤ 1 ∧
    Cmd.filter (Stream.AddStream (Hflip (.input ⟨"A", []⟩)) Cmd.empty).2 ["0"] "hflip" 1 =
      (some ["s0"], (Stream.AddStream (Hflip (.input ⟨"A", []⟩)) Cmd.empty).2) :=
  ⟨by decide,
    ((operator_dedup (Stream.AddStream (Hflip (.input ⟨"A", []⟩)) Cmd.empty).2 ["0"] "hflip" 1
      (by decide)).1 ⟨["0"], "hflip", ["s0"]⟩ (by decide) (by decide)).2.2
      (Reachable.addStream _ Reachable.empty)⟩

/-- C5, at the failing input.  Resolving the source `a` with option `x` and then
twice the source `a` with option `y`, from the empty context, reaches a context
whose source list holds the source `a` with option `y` twice. -/
theorem sources_registered_twice :
    Reachable (Stream.AddStream (.input ⟨"a", ["y"]⟩)
      (Stream.AddStream (.input ⟨"a", ["y"]⟩)
        (Stream.AddStream (.input ⟨"a", ["x"]⟩) Cmd.empty).2).2).2 ∧
    (Stream.AddStream (.input ⟨"a", ["y"]⟩)
      (Stream.AddStream (.input ⟨"a", ["y"]⟩)
        (Stream.AddStream (.input ⟨"a", ["x"]⟩) Cmd.empty).2).2).2.inputFiles =
      [⟨"a", ["x"]⟩, ⟨"a", ["y"]⟩, ⟨"a", ["y"]⟩] :=
  ⟨Reachable.addStream _ (Reachable.addStream _ (Reachable.addStream _ Reachable.empty)),
    by decide⟩

/-- C6 (unique generated names).  In a reachable context the output names of
the operator list, concatenated in registration order, are `s0`, `s1`, ...,
`s(ns-1)` for the current counter `ns`, and they are pairwise distinct. -/
theorem generated_names_unique (c : Cmd) (hc : Reachable c) :
    outNames c.filters = (List.range c.ns).map (fun k : Nat => "s" ++ Itoa k) ∧
    (outNames c.filters).Nodup :=
  ⟨reachable_namesInv hc, (reachable_namesInv hc).nodup⟩

/-- Witness of C6: the context reached by resolving the two outputs of
`SplitN(A, 2)` has counter 2 and output names `s0`, `s1`. -/
theorem generated_names_unique_witness :
    Reachable (Stream.AddStreams
      [.splitFilter (.input ⟨"A", []⟩) "split" 2 0, .splitFilter (.input ⟨"A", []⟩) "split" 2 1]
      Cmd.empty).2 ∧
    outNames (Stream.AddStreams
      [.splitFilter (.input ⟨"A", []⟩) "split" 2 0, .splitFilter (.input ⟨"A", []⟩) "split" 2 1]
      Cmd.empty).2.filters = ["s0", "s1"] := by
  have hr : Reachable (Stream.AddStreams
      [.splitFilter (.input ⟨"A", []⟩) "split" 2 0, .splitFilter (.input ⟨"A", []⟩) "split" 2 1]
      Cmd.empty).2 :=
    Reachable.addStream (.splitFilter (.input ⟨"A", []⟩) "split" 2 1)
      (Reachable.addStream (.splitFilter (.input ⟨"A", []⟩) "split" 2 0) Reachable.empty)
  refine ⟨hr, ?_⟩
  rw [(generated_names_unique _ hr).1]
  decide

/-! ## The serializer -/

theorem foldl_source_args (l : List Input) : ∀ acc : List String,
    l.foldl (fun args in_ => args ++ in_.Options ++ ["-i", in_.Name]) acc =
      acc ++ specSourceArgs l := by
  induction l with
  | nil => intro acc; simp [specSourceArgs]
  | cons f rest ih =>
    intro acc
    rw [List.foldl_cons, ih]
    simp only [specSourceArgs, List.flatMap_cons, List.append_assoc]

theorem foldl_map_args (l : List String) : ∀ acc : List String,
    l.foldl (fun args s => args ++ ["-map", s]) acc = acc ++ l.flatMap (fun s => ["-map", s]) := by
  induction l with
  | nil => intro acc; simp
  | cons s rest ih => intro acc; simp only [List.foldl_cons, ih, List.flatMap_cons, List.append_assoc]

theorem foldl_sink_args (l : List output) : ∀ acc : List String,
    l.foldl (fun args o => (o.StreamSels.foldl (fun args s => args ++ ["-map", s]) args)
      ++ o.Options ++ [o.Name]) acc = acc ++ specSinkArgs l := by
  induction l with
  | nil => intro acc; simp [specSinkArgs]
  | cons o rest ih =>
    intro acc
    rw [List.foldl_cons, ih, foldl_map_args]
    simp only [specSinkArgs, List.flatMap_cons, List.append_assoc]

/-- The argument list of `Cmd.Cmd` in three parts. -/
theorem args_parts (c : Cmd) :
    c.args = specSourceArgs c.inputFiles ++ filterArgs c.filters ++ specSinkArgs c.outputs := by
  unfold Cmd.args filterArgs
  simp only [foldl_source_args, foldl_sink_args, List.nil_append]
  split <;> simp

theorem join_cons (a : String) (l : List String) : String.join (a :: l) = a ++ String.join l := by
  have h : ∀ (l : List String) (acc : String),
      List.foldl (fun r s => r ++ s) acc l = acc ++ List.foldl (fun r s => r ++ s) "" l := by
    intro l
    induction l with
    | nil => intro acc; simp
    | cons b rest ih =>
      intro acc
      simp only [List.foldl_cons]
      rw [ih (acc ++ b), ih ("" ++ b), String.empty_append, String.append_assoc]
  unfold String.join
  rw [List.foldl_cons, h, String.empty_append]

theorem writeRefs_eq (refs : List String) : ∀ sb : String,
    writeRefs sb refs = sb ++ String.join (refs.map (fun r => "[" ++ r ++ "]")) := by
  induction refs with
  | nil => intro sb; simp [writeRefs, String.join]
  | cons r rest ih =>
    intro sb
    have h := ih (sb ++ "[" ++ r ++ "]")
    unfold writeRefs at h ⊢
    rw [List.foldl_cons, h, List.map_cons, join_cons]
    simp only [String.append_assoc]

theorem intercalate_go_append (s : String) (l : List String) : ∀ x y : String,
    String.intercalate.go (x ++ y) s l = x ++ String.intercalate.go y s l := by
  induction l with
  | nil => intro x y; simp [String.intercalate.go]
  | cons a rest ih =>
    intro x y
    simp only [String.intercalate.go]
    rw [← ih x (y ++ s ++ a)]
    simp only [String.append_assoc]

theorem intercalate_cons_cons (s a b : String) (l : List String) :
    String.intercalate s (a :: b :: l) = a ++ s ++ String.intercalate s (b :: l) := by
  simp only [String.intercalate, String.intercalate.go]
  rw [intercalate_go_append]

theorem writeFilters_eq (total : Nat) (fs : List filter) : ∀ (i : Nat) (sb : String),
    i + fs.length = total → writeFilters total i fs sb = sb ++ specChain fs := by
  induction fs with
  | nil => intro i sb _; simp [writeFilters, specChain, String.intercalate]
  | cons f rest ih =>
    intro i sb hlen
    simp only [List.length_cons] at hlen
    simp only [writeFilters, writeRefs_eq]
    cases rest with
    | nil =>
      have hi : i = total - 1 := by simp at hlen; omega
      simp only [hi, ne_eq, not_true_eq_false, if_false, writeFilters, specChain, List.map_cons,
        List.map_nil, String.intercalate, String.intercalate.go, specRender, String.append_assoc]
    | cons g rest1 =>
      have hi : i ≠ total - 1 := by simp at hlen; omega
      rw [if_pos hi, ih (i + 1) _ (by simp at hlen ⊢; omega)]
      simp only [specChain, List.map_cons, intercalate_cons_cons, specRender, String.append_assoc]

theorem filterArgs_eq (fs : List filter) :
    filterArgs fs = if fs = [] then [] else ["-filter_complex", specChain fs] := by
  unfold filterArgs
  cases fs with
  | nil => simp
  | cons f rest =>
    rw [writeFilters_eq (f :: rest).length (f :: rest) 0 "" (by simp)]
    simp

/-- C7 (round-trip example).  From the empty context,
`AddOutput("out.mp4", no options, Overlay(Input A, Input B, 10, 20))` returns
normally and the serializer then builds exactly the expected arguments. -/
theorem overlay_round_trip :
    (Cmd.empty.AddOutput "out.mp4" []
        [Overlay (.input ⟨"A", []⟩) (.input ⟨"B", []⟩) 10 20]).1 = some () ∧
    (Cmd.empty.AddOutput "out.mp4" []
        [Overlay (.input ⟨"A", []⟩) (.input ⟨"B", []⟩) 10 20]).2.args =
      ["-i", "A", "-i", "B", "-filter_complex", "[0][1]overlay=10:20[s0]", "-map", "[s0]",
        "out.mp4"] := by
  refine ⟨by decide, by decide⟩

/-- C8 (serializer layout).  The argument list built by `Cmd.Cmd` is, in this
order and with nothing else: per source its options, `-i` and its name; the
filter-graph part; per sink one `-map` and reference per stream reference, its
options and its name. -/
theorem serializer_layout (c : Cmd) :
    c.Cmd.Args = specSourceArgs c.inputFiles ++ filterArgs c.filters ++ specSinkArgs c.outputs ∧
    c.Cmd.Args = c.args :=
  ⟨args_parts c, rfl⟩

/-- C9 (filter expression).  With an empty operator list the argument list is
the source arguments followed by the sink arguments, with no `-filter_complex`
and no chain in between; with a non-empty one it has, between them, one
`-filter_complex` and one chain, the renderings of the operator applications in
registration order joined by `;`. -/
theorem filter_expression (c : Cmd) :
    (c.filters = [] → c.args = specSourceArgs c.inputFiles ++ specSinkArgs c.outputs) ∧
    (c.filters ≠ [] → c.args = specSourceArgs c.inputFiles ++
      ["-filter_complex", String.intercalate ";" (c.filters.map specRender)] ++
      specSinkArgs c.outputs) ∧
    filterArgs c.filters =
      if c.filters = [] then [] else ["-filter_complex", specChain c.filters] := by
  refine ⟨fun h => ?_, fun h => ?_, filterArgs_eq _⟩
  · rw [args_parts, filterArgs_eq, if_pos h, List.append_nil]
  · rw [args_parts, filterArgs_eq, if_neg h]; rfl

/-! ## Reference kinds -/

theorem andThen_some {α β : Type} {x : Option α × Cmd} {k : α → Cmd → Option β × Cmd} {b : β}
    (h : (andThen x k).1 = some b) : ∃ a, x.1 = some a ∧ (k a x.2).1 = some b := by
  rcases x with ⟨_ | a, c⟩
  · simp [andThen] at h
  · exact ⟨a, rfl, h⟩

theorem andThen_snd_of_some {α β : Type} {x : Option α × Cmd} {k : α → Cmd → Option β × Cmd}
    {a : α} (h : x.1 = some a) : andThen x k = k a x.2 := by
  rcases x with ⟨_ | a1, c⟩
  · cases h
  · simp only [Option.some.injEq] at h; subst h; rfl

theorem filterAt_ref {c : Cmd} (hc : NamesInv c) {ins : List String} {str : String} {n i : Int}
    {r : String} (h : (c.filterAt ins str n i).1 = some r) : ∃ m, r = genName m := by
  unfold Cmd.filterAt at h
  obtain ⟨out, ho, hi⟩ := andThen_some h
  have hr : r ∈ out := index_mem hi
  rcases filter_cases c ins str n with ⟨out1, hs, e⟩ | ⟨_, _, e⟩ | ⟨_, _, e⟩
  · rw [e] at ho
    simp only [Option.some.injEq] at ho
    subst ho
    obtain ⟨m, _, hm⟩ := hc.mem (search_some_mem hs hr)
    exact ⟨m, hm⟩
  · rw [e] at ho; cases ho
  · rw [e] at ho
    simp only [Option.some.injEq] at ho
    subst ho
    obtain ⟨m, _, hm⟩ := List.mem_map.1 hr
    exact ⟨_, hm.symm⟩

theorem Itoa_nat_head (i : Nat) : ∃ ch rest, (Itoa (i : Int)).data = ch :: rest ∧ ch.isDigit = true := by
  have h1 := repr_ne_nil i
  have h2 := repr_digits i
  rw [Itoa_natCast]
  cases hd : (Nat.repr i).data with
  | nil => exact absurd hd h1
  | cons ch rest => exact ⟨ch, rest, rfl, h2 ch (by rw [hd]; exact List.mem_cons_self _ _)⟩

theorem head_append {r t : String} {ch : Char} {rest : List Char} (h : r.data = ch :: rest) :
    (r ++ t).data = ch :: (rest ++ t.data) := by
  simp [h]

/-- The first character of a resolved reference, by node kind: a decimal digit
for a source or file handle, given by value or through a pointer, and the
letter `s` for every other node. -/
theorem ref_head (s : Stream) : ∀ (c : Cmd), NamesInv c → ∀ r : String,
    (s.AddStream c).1 = some r →
    (isSource s = true → ∃ ch rest, r.data = ch :: rest ∧ ch.isDigit = true) ∧
    (isSource s = false → ∃ rest, r.data = 's' :: rest) := by
  have op : ∀ {c : Cmd} {ins : List String} {str : String} {n i : Int} {r : String},
      NamesInv c → (c.filterAt ins str n i).1 = some r → ∃ rest, r.data = 's' :: rest := by
    intro c ins str n i r hc h
    obtain ⟨m, rfl⟩ := filterAt_ref hc h
    exact ⟨_, genName_data m⟩
  have inv := fun (s : Stream) (c : Cmd) (hc : NamesInv c) => (namesInv_preserved.AddStream s c hc).1
  have invs := fun (ss : List Stream) (c : Cmd) (hc : NamesInv c) =>
    (namesInv_preserved.AddStreams ss (fun s _ => namesInv_preserved.AddStream s) c hc).1
  induction s using Stream.ind with
  | nil => intro c _ r h; simp [Stream.AddStream] at h
  | input f =>
    intro c _ r h
    simp only [Stream.AddStream, Option.some.injEq] at h
    obtain ⟨i, hi⟩ := Input.AddStream_ref f c
    refine ⟨fun _ => ?_, fun h2 => by simp [isSource] at h2⟩
    rw [← h, hi]; exact Itoa_nat_head i
  | inputFile file o =>
    intro c _ r h
    simp only [Stream.AddStream, Option.some.injEq] at h
    obtain ⟨i, hi⟩ := Input.AddStream_ref
      ⟨"/dev/fd/" ++ Itoa (↑(c.addExtraFile file).1 + 3), o⟩ (c.addExtraFile file).2
    refine ⟨fun _ => ?_, fun h2 => by simp [isSource] at h2⟩
    rw [← h]
    have e : (InputFile.AddStream file o c).1 = Itoa i := hi
    rw [e]; exact Itoa_nat_head i
  | inputPtr p =>
    intro c _ r h
    cases p with
    | none => simp [Stream.AddStream] at h
    | some f =>
      simp only [Stream.AddStream, Option.some.injEq] at h
      obtain ⟨i, hi⟩ := Input.AddStream_ref f c
      refine ⟨fun _ => ?_, fun h2 => by simp [isSource] at h2⟩
      rw [← h, hi]; exact Itoa_nat_head i
  | inputFilePtr p =>
    intro c _ r h
    cases p with
    | none => simp [Stream.AddStream] at h
    | some q =>
      simp only [Stream.AddStream, Option.some.injEq] at h
      obtain ⟨i, hi⟩ := Input.AddStream_ref
        ⟨"/dev/fd/" ++ Itoa (↑(c.addExtraFile q.1).1 + 3), q.2⟩ (c.addExtraFile q.1).2
      refine ⟨fun _ => ?_, fun h2 => by simp [isSource] at h2⟩
      rw [← h]
      have e : (InputFile.AddStream q.1 q.2 c).1 = Itoa i := hi
      rw [e]; exact Itoa_nat_head i
  | streamPortion s t ih =>
    intro c hc r h
    simp only [Stream.AddStream] at h
    obtain ⟨r0, h0, h1⟩ := andThen_some h
    simp only [Option.some.injEq] at h1
    subst h1
    have := ih c hc r0 h0
    simp only [isSource]
    refine ⟨fun hi => ?_, fun hi => ?_⟩
    · obtain ⟨ch, rest, e, hd⟩ := this.1 hi
      exact ⟨ch, _, by rw [String.append_assoc]; exact head_append e, hd⟩
    · obtain ⟨rest, e⟩ := this.2 hi
      exact ⟨_, by rw [String.append_assoc]; exact head_append e⟩
  | optionalStream s ih =>
    intro c hc r h
    simp only [Stream.AddStream] at h
    obtain ⟨r0, h0, h1⟩ := andThen_some h
    simp only [Option.some.injEq] at h1
    subst h1
    have := ih c hc r0 h0
    simp only [isSource]
    refine ⟨fun hi => ?_, fun hi => ?_⟩
    · obtain ⟨ch, rest, e, hd⟩ := this.1 hi
      exact ⟨ch, _, head_append e, hd⟩
    · obtain ⟨rest, e⟩ := this.2 hi
      exact ⟨_, head_append e⟩
  | splitFilter s flt n i _ =>
    intro c hc r h
    simp only [Stream.AddStream] at h
    obtain ⟨r0, _, h1⟩ := andThen_some h
    exact ⟨fun hi => by simp [isSource] at hi, fun _ => op (inv s c hc) h1⟩
  | concatFilter ss v a i _ =>
    intro c hc r h
    simp only [Stream.AddStream] at h
    obtain ⟨r0, _, h1⟩ := andThen_some h
    exact ⟨fun hi => by simp [isSource] at hi, fun _ => op (invs ss c hc) h1⟩
  | simpFilter s flt _ =>
    intro c hc r h
    refine ⟨fun hi => by simp [isSource] at hi, fun _ => ?_⟩
    have hgen : (andThen (s.AddStream c) (fun r c1 => c1.filterAt [r] flt 1 0)).1 = some r →
        ∃ rest, r.data = 's' :: rest := by
      intro h0
      obtain ⟨r0, _, h1⟩ := andThen_some h0
      exact op (inv s c hc) h1
    cases s
    case nil =>
      simp only [Stream.AddStream] at h
      exact op hc h
    all_goals
      simp only [Stream.AddStream] at h hgen
      exact hgen h
  | aMix ss _ =>
    intro c hc r h
    simp only [Stream.AddStream] at h
    obtain ⟨r0, _, h1⟩ := andThen_some h
    exact ⟨fun hi => by simp [isSource] at hi, fun _ => op (invs ss c hc) h1⟩
  | overlay u o x y _ _ =>
    intro c hc r h
    simp only [Stream.AddStream] at h
    obtain ⟨r1, _, h1⟩ := andThen_some h
    obtain ⟨r2, _, h2⟩ := andThen_some h1
    exact ⟨fun hi => by simp [isSource] at hi, fun _ => op (inv o _ (inv u c hc)) h2⟩
  | paletteUse u o _ _ =>
    intro c hc r h
    simp only [Stream.AddStream] at h
    obtain ⟨r1, _, h1⟩ := andThen_some h
    obtain ⟨r2, _, h2⟩ := andThen_some h1
    exact ⟨fun hi => by simp [isSource] at hi, fun _ => op (inv o _ (inv u c hc)) h2⟩

theorem addSels_eq (ss : List Stream) : ∀ c : Cmd,
    Cmd.addSels ss c =
      andThen (Stream.AddStreams ss c) (fun refs c1 => (some (List.zipWith streamSel ss refs), c1)) := by
  induction ss with
  | nil => intro c; rfl
  | cons s rest ih =>
    intro c
    simp only [Cmd.addSels, Stream.AddStreams]
    rcases h1 : s.AddStream c with ⟨_ | r, c1⟩
    · rfl
    · simp only [andThen]
      rw [ih c1]
      rcases h2 : Stream.AddStreams rest c1 with ⟨_ | rs, c2⟩
      · rfl
      · simp [andThen, streamSel]

theorem AddOutput_eq (c : Cmd) (name : String) (options : List String) (streams : List Stream)
    (refs : List String) (h : (Stream.AddStreams streams c).1 = some refs) :
    c.AddOutput name options streams =
      (some (), { (Stream.AddStreams streams c).2 with
        outputs := (Stream.AddStreams streams c).2.outputs ++
          [⟨name, options, List.zipWith streamSel streams refs⟩] }) := by
  unfold Cmd.AddOutput
  rw [addSels_eq, andThen_snd_of_some h]
  rfl

theorem AddStreams_single (s : Stream) (c : Cmd) (r : String) (h : (s.AddStream c).1 = some r) :
    Stream.AddStreams [s] c = (some [r], (s.AddStream c).2) := by
  simp only [Stream.AddStreams]
  rw [andThen_snd_of_some h]
  rfl

theorem IsInputStream_isSource (s : Stream) : IsInputStream s = true → isSource s = true := by
  induction s using Stream.ind with
  | streamPortion s t ih => simpa [IsInputStream, isSource] using ih
  | optionalStream s ih => simpa [IsInputStream, isSource] using ih
  | input f => intro _; rfl
  | inputFile file o => intro _; rfl
  | nil => intro h; simp [IsInputStream] at h
  | inputPtr p => intro h; simp [IsInputStream] at h
  | inputFilePtr p => intro h; simp [IsInputStream] at h
  | splitFilter s flt n i _ => intro h; simp [IsInputStream] at h
  | concatFilter ss v a i _ => intro h; simp [IsInputStream] at h
  | simpFilter s flt _ => intro h; simp [IsInputStream] at h
  | aMix ss _ => intro h; simp [IsInputStream] at h
  | overlay u o x y _ _ => intro h; simp [IsInputStream] at h
  | paletteUse u o _ _ => intro h; simp [IsInputStream] at h

/-- The reference kinds are unambiguous: in a reachable context a resolved
reference begins with a decimal digit exactly when the node is a source or a
file handle, by value or through a pointer, possibly wrapped, and with the
letter `s` otherwise; an input stream in the sense of `IsInputStream` is such a
node. -/
theorem reference_head_by_source (c : Cmd) (hc : Reachable c) (s : Stream) (r : String)
    (hr : (s.AddStream c).1 = some r) :
    ((∃ ch rest, r.data = ch :: rest ∧ ch.isDigit = true) ↔ isSource s = true) ∧
    (isSource s = false → ∃ rest, r.data = 's' :: rest) ∧
    (IsInputStream s = true → isSource s = true) := by
  have h := ref_head s c (reachable_namesInv hc) r hr
  refine ⟨⟨fun hd => ?_, h.1⟩, h.2, IsInputStream_isSource s⟩
  cases hi : isSource s
  · obtain ⟨ch, rest, e, hch⟩ := hd
    obtain ⟨rest1, e1⟩ := h.2 hi
    rw [e1] at e
    exact absurd ((List.cons.inj e).1 ▸ hch) (by decide)
  · rfl

/-- C10, at the failing input.  The pointer node `&Input{"a", nil}` is not an
input stream for `IsInputStream`, whose type switch has no case for `*Input`,
and from the empty context it resolves to the source index `0`; `AddOutput`
therefore stores the reference as `[0]` and the serializer emits `-map [0]`,
where the value node `Input{"a", nil}` is stored bare as `0`. -/
theorem pointer_source_stored_in_brackets :
    IsInputStream (.inputPtr (some ⟨"a", []⟩)) = false ∧
    Stream.AddStream (.inputPtr (some ⟨"a", []⟩)) Cmd.empty =
      (some "0", { inputFiles := [⟨"a", []⟩] }) ∧
    Cmd.empty.AddOutput "out" [] [.inputPtr (some ⟨"a", []⟩)] =
      (some (), { inputFiles := [⟨"a", []⟩], outputs := [⟨"out", [], ["[0]"]⟩] }) ∧
    (Cmd.empty.AddOutput "out" [] [.inputPtr (some ⟨"a", []⟩)]).2.args =
      ["-i", "a", "-map", "[0]", "out"] ∧
    IsInputStream (.input ⟨"a", []⟩) = true ∧
    Cmd.empty.AddOutput "out" [] [.input ⟨"a", []⟩] =
      (some (), { inputFiles := [⟨"a", []⟩], outputs := [⟨"out", [], ["0"]⟩] }) := by
  refine ⟨by decide, by decide, by decide, by decide, by decide, by decide⟩

/-! ## Source and file-handle lookup -/

theorem Input.search_some (f : Input) : ∀ (l : List Input) (j i : Nat),
    Input.search f l j = some i → ∃ k, i = j + k ∧ l[k]? = some f := by
  intro l
  induction l with
  | nil => intro j i h; simp [Input.search] at h
  | cons file rest ih =>
    intro j i h
    rw [Input.search] at h
    by_cases h1 : f.Name = file.Name
    · by_cases h2 : f.Options.length = file.Options.length
      · cases h3 : sliceMismatch f.Options file.Options
        · simp only [h1, h2, h3, ne_eq, not_true_eq_false, if_false, Bool.false_eq_true,
            Option.some.injEq] at h
          have h4 := (sliceMismatch_eq_false f.Options file.Options h2).1 h3
          have e : file = f := by
            cases f; cases file; simp_all
          exact ⟨0, by omega, by simp [e]⟩
        · simp [h1, h2, h3] at h
      · simp only [h1, h2, ne_eq, not_true_eq_false, if_false, not_false_eq_true, if_true] at h
        obtain ⟨k, hk, e⟩ := ih (j + 1) i h
        exact ⟨k + 1, by omega, by simpa using e⟩
    · simp only [h1, ne_eq, not_false_eq_true, if_true] at h
      obtain ⟨k, hk, e⟩ := ih (j + 1) i h
      exact ⟨k + 1, by omega, by simpa using e⟩

theorem Input.search_self (f : Input) (rest : List Input) (j : Nat) :
    Input.search f (f :: rest) j = some j := by
  have h := (sliceMismatch_eq_false f.Options f.Options rfl).2 rfl
  simp [Input.search, h]

theorem Input.search_same_name (name : String) (o1 o2 : List String) (h : o1 ≠ o2) (j : Nat) :
    Input.search ⟨name, o2⟩ [⟨name, o1⟩] j = none := by
  rw [Input.search]
  by_cases h2 : o2.length = o1.length
  · have h3 : sliceMismatch o2 o1 = true := by
      cases h4 : sliceMismatch o2 o1
      · exact absurd ((sliceMismatch_eq_false o2 o1 h2).1 h4).symm h
      · rfl
    simp [h2, h3]
  · simp [h2, Input.search]

theorem Itoa_zero : Itoa 0 = "0" := by decide

theorem Itoa_one : Itoa 1 = "1" := by decide

/-- C12, at the failing input.  `Concat(1, 0, A, B)` returns two nodes, one per
input stream, although the operator has `v + a = 1` output; the node with output
index `1` cannot be resolved: `Cmd.filter` registers the operator with one
output name and indexing it at `1` panics. -/
theorem concat_returns_a_node_per_input :
    Concat 1 0 [.input ⟨"A", []⟩, .input ⟨"B", []⟩] =
      [.concatFilter [.input ⟨"A", []⟩, .input ⟨"B", []⟩] 1 0 0,
        .concatFilter [.input ⟨"A", []⟩, .input ⟨"B", []⟩] 1 0 1] ∧
    Stream.AddStream (.concatFilter [.input ⟨"A", []⟩, .input ⟨"B", []⟩] 1 0 1) Cmd.empty =
      (none,
        { inputFiles := [⟨"A", []⟩, ⟨"B", []⟩],
          filters := [⟨["0", "1"], "concat=v=1:a=0", ["s0"]⟩],
          ns := 1 }) ∧
    (Concat 1 1 [.input ⟨"A", []⟩]).length = 1 := by
  refine ⟨rfl, by decide, rfl⟩

/-- C13, at the failing input.  In the context reached by resolving the file
handle `0` with option `x`, resolving the same handle with option `y` twice in
succession returns `1` and then `2`, and the second resolution registers the
source `/dev/fd/3` with option `y` once more. -/
theorem file_handle_resolved_twice :
    Reachable (Stream.AddStream (.inputFile 0 ["x"]) Cmd.empty).2 ∧
    Stream.AddStream (.inputFile 0 ["y"]) (Stream.AddStream (.inputFile 0 ["x"]) Cmd.empty).2 =
      (some "1",
        { inputFiles := [⟨"/dev/fd/3", ["x"]⟩, ⟨"/dev/fd/3", ["y"]⟩], extraFiles := [0] }) ∧
    Stream.AddStream (.inputFile 0 ["y"])
        { inputFiles := [⟨"/dev/fd/3", ["x"]⟩, ⟨"/dev/fd/3", ["y"]⟩], extraFiles := [0] } =
      (some "2",
        { inputFiles := [⟨"/dev/fd/3", ["x"]⟩, ⟨"/dev/fd/3", ["y"]⟩, ⟨"/dev/fd/3", ["y"]⟩],
          extraFiles := [0] }) :=
  ⟨Reachable.addStream _ Reachable.empty, by decide, by decide⟩

/-- C15 (source distinctness).  For a name and two different option lists `o1`
and `o2`, resolving `Input{name, o1}` and then `Input{name, o2}` from the empty
context returns `0` and then `1`, and the source list is then exactly these two
sources in this order. -/
theorem source_distinctness (name : String) (o1 o2 : List String) (h : o1 ≠ o2) :
    Input.AddStream ⟨name, o1⟩ Cmd.empty = ("0", { inputFiles := [⟨name, o1⟩] }) ∧
    Input.AddStream ⟨name, o2⟩ (Input.AddStream ⟨name, o1⟩ Cmd.empty).2 =
      ("1", { inputFiles := [⟨name, o1⟩, ⟨name, o2⟩] }) := by
  have h1 : Input.AddStream ⟨name, o1⟩ Cmd.empty = ("0", { inputFiles := [⟨name, o1⟩] }) := by
    simp [Input.AddStream, Input.search, Cmd.empty, Itoa_zero]
  refine ⟨h1, ?_⟩
  rw [h1]
  simp [Input.AddStream, Input.search_same_name name o1 o2 h, Itoa_one]

/-- Witness of C15, with option lists of the same length. -/
theorem source_distinctness_witness :
    (["-r", "1"] : List String) ≠ ["-r", "2"] ∧
    Input.AddStream ⟨"a", ["-r", "2"]⟩ (Input.AddStream ⟨"a", ["-r", "1"]⟩ Cmd.empty).2 =
      ("1", { inputFiles := [⟨"a", ["-r", "1"]⟩, ⟨"a", ["-r", "2"]⟩] }) :=
  ⟨by decide, (source_distinctness "a" ["-r", "1"] ["-r", "2"] (by decide)).2⟩

/-- C16 (source dedup from the empty context).  Resolving a source `f` twice from
the empty context returns `0` both times, and the source list is then exactly
`[f]`. -/
theorem source_dedup_from_empty (f : Input) :
    Input.AddStream f Cmd.empty = ("0", { inputFiles := [f] }) ∧
    Input.AddStream f (Input.AddStream f Cmd.empty).2 = ("0", { inputFiles := [f] }) := by
  have h1 : Input.AddStream f Cmd.empty = ("0", { inputFiles := [f] }) := by
    simp [Input.AddStream, Input.search, Cmd.empty, Itoa_zero]
  refine ⟨h1, ?_⟩
  rw [h1]
  simp [Input.AddStream, Input.search_self, Itoa_zero]

theorem Input.AddStream_entry (f : Input) (c : Cmd) :
    ∃ i : Nat, (Input.AddStream f c).1 = Itoa i ∧
      (Input.AddStream f c).2.inputFiles[i]? = some f := by
  unfold Input.AddStream
  cases h : Input.search f c.inputFiles 0 with
  | some i =>
    obtain ⟨k, hk, e⟩ := Input.search_some f c.inputFiles 0 i h
    have hi : i = k := by omega
    subst hi
    exact ⟨i, rfl, e⟩
  | none => exact ⟨c.inputFiles.length, rfl, by simp⟩

/-- C17 (no stale source index).  The reference returned by `Input.AddStream` is
the decimal of a position inside the resulting source list, and the entry at
that position has the name and the option list of `f`. -/
theorem no_stale_source_index (f : Input) (c : Cmd) :
    ∃ i : Nat, (Input.AddStream f c).1 = Itoa i ∧
      i < (Input.AddStream f c).2.inputFiles.length ∧
      ∃ e, (Input.AddStream f c).2.inputFiles[i]? = some e ∧
        e.Name = f.Name ∧ e.Options = f.Options := by
  obtain ⟨i, h1, h2⟩ := Input.AddStream_entry f c
  exact ⟨i, h1, (List.getElem?_eq_some.1 h2).1, f, h2, rfl, rfl⟩

/-! ## File handles -/

theorem fileSearch_some (file : File) : ∀ (l : List File) (j i : Nat),
    fileSearch file l j = some i →
      ∃ k, i = j + k ∧ l[k]? = some file ∧ ∀ q, q < k → l[q]? ≠ some file := by
  intro l
  induction l with
  | nil => intro j i h; simp [fileSearch] at h
  | cons f rest ih =>
    intro j i h
    rw [fileSearch] at h
    by_cases h1 : file = f
    · simp only [h1, if_true, Option.some.injEq] at h
      exact ⟨0, by omega, by simp [h1], fun q hq => by omega⟩
    · simp only [h1, if_false] at h
      obtain ⟨k, hk, e, hfirst⟩ := ih (j + 1) i h
      refine ⟨k + 1, by omega, by simpa using e, fun q hq => ?_⟩
      cases q with
      | zero => simpa using fun e => h1 e.symm
      | succ q => simpa using hfirst q (by omega)

theorem fileSearch_none (file : File) : ∀ (l : List File) (j : Nat),
    fileSearch file l j = none ↔ file ∉ l := by
  intro l
  induction l with
  | nil => intro j; simp [fileSearch]
  | cons f rest ih =>
    intro j
    rw [fileSearch]
    by_cases h1 : file = f
    · simp [h1]
    · simp [h1, ih (j + 1)]

/-- What `Cmd.addExtraFile` does: the file is appended only when absent, and the
position returned is that of its first occurrence. -/
theorem addExtraFile_spec (c : Cmd) (file : File) :
    (c.addExtraFile file).2.extraFiles =
      (if file ∈ c.extraFiles then c.extraFiles else c.extraFiles ++ [file]) ∧
    (c.addExtraFile file).2.extraFiles[(c.addExtraFile file).1]? = some file ∧
    (∀ q, q < (c.addExtraFile file).1 → (c.addExtraFile file).2.extraFiles[q]? ≠ some file) := by
  unfold Cmd.addExtraFile
  cases h : fileSearch file c.extraFiles 0 with
  | some i =>
    obtain ⟨k, hk, e, hfirst⟩ := fileSearch_some file c.extraFiles 0 i h
    have hi : i = k := by omega
    subst hi
    have hm : file ∈ c.extraFiles := List.getElem?_mem e
    simp only [hm, if_true]
    exact ⟨trivial, e, hfirst⟩
  | none =>
    have hm : file ∉ c.extraFiles := (fileSearch_none file c.extraFiles 0).1 h
    simp only [hm, if_false]
    refine ⟨trivial, by simp, fun q hq => ?_⟩
    rw [List.getElem?_append_left hq]
    exact fun e => hm (List.getElem?_mem e)

theorem AddOutput_extends (c : Cmd) (name : String) (options : List String)
    (streams : List Stream) : c.Extends (c.AddOutput name options streams).2 := by
  have h1 := addSels_extends streams c
  unfold Cmd.AddOutput
  apply andThen_elim (fun x : Option Unit × Cmd => c.Extends x.2)
  · intro _; exact h1
  · intro sels _
    exact h1.trans ⟨List.prefix_refl _, List.prefix_refl _, List.prefix_refl _,
      List.prefix_append _ _, le_refl _⟩

theorem getElem?_of_prefix {α : Type} {l1 l2 : List α} (h : l1 <+: l2) {p : Nat}
    (hp : p < l1.length) : l2[p]? = l1[p]? := by
  obtain ⟨t, rfl⟩ := h
  exact List.getElem?_append_left hp

/-- C14 (file-handle addressing).  Resolving `InputFile{h, o}`, and likewise
`AddFileOutput` with `h`, appends `h` to the file-handle list only when it is
absent, finds it at the position `p` of its first occurrence and addresses it as
`/dev/fd/` followed by the decimal of `p + 3`: the node resolves as the source of
that name with options `o`, the sink is declared under that name, and `h` is
still first found at `p` afterwards.  From the empty context, resolving a file
handle without options and serializing gives `-i /dev/fd/3`. -/
theorem file_handle_addressing (c : Cmd) (h : File) (o : List String) (options : List String)
    (streams : List Stream) :
    ((c.addExtraFile h).2.extraFiles =
      (if h ∈ c.extraFiles then c.extraFiles else c.extraFiles ++ [h])) ∧
    (InputFile.AddStream h o c =
      Input.AddStream ⟨"/dev/fd/" ++ Itoa ((c.addExtraFile h).1 + 3), o⟩ (c.addExtraFile h).2) ∧
    ((InputFile.AddStream h o c).2.extraFiles = (c.addExtraFile h).2.extraFiles) ∧
    ((InputFile.AddStream h o c).2.extraFiles[(c.addExtraFile h).1]? = some h) ∧
    (∀ q, q < (c.addExtraFile h).1 → (InputFile.AddStream h o c).2.extraFiles[q]? ≠ some h) ∧
    (∃ i : Nat, (InputFile.AddStream h o c).1 = Itoa i ∧
      (InputFile.AddStream h o c).2.inputFiles[i]? =
        some ⟨"/dev/fd/" ++ Itoa ((c.addExtraFile h).1 + 3), o⟩) ∧
    (c.AddFileOutput h options streams =
      (c.addExtraFile h).2.AddOutput ("/dev/fd/" ++ Itoa ((c.addExtraFile h).1 + 3))
        options streams) ∧
    ((c.AddFileOutput h options streams).2.extraFiles[(c.addExtraFile h).1]? = some h) ∧
    (∀ q, q < (c.addExtraFile h).1 →
      (c.AddFileOutput h options streams).2.extraFiles[q]? ≠ some h) ∧
    (InputFile.AddStream h [] Cmd.empty).2.args = ["-i", "/dev/fd/3"] := by
  have hs := addExtraFile_spec c h
  have hfiles : (InputFile.AddStream h o c).2.extraFiles = (c.addExtraFile h).2.extraFiles :=
    (Input.AddStream_filters _ _).2.2.1
  have hlt : (c.addExtraFile h).1 < (c.addExtraFile h).2.extraFiles.length :=
    (List.getElem?_eq_some.1 hs.2.1).1
  have hext := AddOutput_extends (c.addExtraFile h).2
    ("/dev/fd/" ++ Itoa ((c.addExtraFile h).1 + 3)) options streams
  have hout : c.AddFileOutput h options streams =
      (c.addExtraFile h).2.AddOutput ("/dev/fd/" ++ Itoa ((c.addExtraFile h).1 + 3))
        options streams := rfl
  refine ⟨hs.1, rfl, hfiles, ?_, ?_, Input.AddStream_entry _ _, hout, ?_, ?_, ?_⟩
  · rw [hfiles]; exact hs.2.1
  · intro q hq; rw [hfiles]; exact hs.2.2 q hq
  · rw [hout, getElem?_of_prefix hext.extraFiles hlt]; exact hs.2.1
  · intro q hq
    rw [hout, getElem?_of_prefix hext.extraFiles (by omega)]
    exact hs.2.2 q hq
  · rfl

/-! ## Resolution leaves the sinks alone -/

theorem filterAt_outputs (c : Cmd) (ins : List String) (str : String) (n i : Int) :
    (c.filterAt ins str n i).2.outputs = c.outputs := by
  have h : (c.filter ins str n).2.outputs = c.outputs := by
    rcases filter_cases c ins str n with ⟨out, _, e⟩ | ⟨_, _, e⟩ | ⟨_, _, e⟩ <;> rw [e]
  unfold Cmd.filterAt
  apply andThen_elim (fun x : Option String × Cmd => x.2.outputs = c.outputs)
  · intro _; exact h
  · intro _ _; exact h

theorem AddStreams_outputs_of (ss : List Stream)
    (h : ∀ s ∈ ss, ∀ c : Cmd, (s.AddStream c).2.outputs = c.outputs) :
    ∀ c : Cmd, (Stream.AddStreams ss c).2.outputs = c.outputs := by
  induction ss with
  | nil => intro c; rfl
  | cons s rest ih =>
    intro c
    simp only [Stream.AddStreams]
    have hs := h s (List.mem_cons_self _ _) c
    apply andThen_elim (fun x : Option (List String) × Cmd => x.2.outputs = c.outputs)
    · intro _; exact hs
    · intro r _
      have hr := ih (fun x hx => h x (List.mem_cons_of_mem _ hx)) (s.AddStream c).2
      apply andThen_elim (fun x : Option (List String) × Cmd => x.2.outputs = c.outputs)
      · intro _; exact hr.trans hs
      · intro _ _; exact hr.trans hs

/-- Node resolution does not touch the sink list. -/
theorem AddStream_outputs (s : Stream) : ∀ c : Cmd, (s.AddStream c).2.outputs = c.outputs := by
  have one : ∀ (s : Stream) (c : Cmd) (k : String → Cmd → Option String × Cmd),
      (s.AddStream c).2.outputs = c.outputs →
      (∀ r c1, (k r c1).2.outputs = c1.outputs) →
      (andThen (s.AddStream c) k).2.outputs = c.outputs := by
    intro s c k h1 h2
    apply andThen_elim (fun x : Option String × Cmd => x.2.outputs = c.outputs)
    · intro _; exact h1
    · intro r _; exact (h2 r _).trans h1
  have many : ∀ (ss : List Stream) (c : Cmd) (k : List String → Cmd → Option String × Cmd),
      (Stream.AddStreams ss c).2.outputs = c.outputs →
      (∀ r c1, (k r c1).2.outputs = c1.outputs) →
      (andThen (Stream.AddStreams ss c) k).2.outputs = c.outputs := by
    intro ss c k h1 h2
    apply andThen_elim (fun x : Option String × Cmd => x.2.outputs = c.outputs)
    · intro _; exact h1
    · intro r _; exact (h2 r _).trans h1
  induction s using Stream.ind with
  | nil => intro c; rfl
  | input f => intro c; simp only [Stream.AddStream]; exact (Input.AddStream_filters f c).2.2.2
  | inputFile file o =>
    intro c; simp only [Stream.AddStream]
    exact ((Input.AddStream_filters _ _).2.2.2).trans (addExtraFile_filters c file).2.2.2
  | inputPtr p =>
    intro c
    cases p with
    | none => rfl
    | some f => simp only [Stream.AddStream]; exact (Input.AddStream_filters f c).2.2.2
  | inputFilePtr p =>
    intro c
    cases p with
    | none => rfl
    | some q =>
      simp only [Stream.AddStream]
      exact ((Input.AddStream_filters _ _).2.2.2).trans (addExtraFile_filters c q.1).2.2.2
  | streamPortion s t ih =>
    intro c; simp only [Stream.AddStream]
    exact one s c _ (ih c) (fun _ _ => rfl)
  | optionalStream s ih =>
    intro c; simp only [Stream.AddStream]
    exact one s c _ (ih c) (fun _ _ => rfl)
  | splitFilter s flt n i ih =>
    intro c; simp only [Stream.AddStream]
    exact one s c _ (ih c) (fun _ _ => filterAt_outputs _ _ _ _ _)
  | concatFilter ss v a i ih =>
    intro c; simp only [Stream.AddStream]
    exact many ss c _ (AddStreams_outputs_of ss ih c) (fun _ _ => filterAt_outputs _ _ _ _ _)
  | simpFilter s flt ih =>
    intro c
    have hgen := one s c (fun r c1 => c1.filterAt [r] flt 1 0) (ih c)
      (fun _ _ => filterAt_outputs _ _ _ _ _)
    cases s
    case nil => simp only [Stream.AddStream]; exact filterAt_outputs _ _ _ _ _
    all_goals simp only [Stream.AddStream] at hgen ⊢
    all_goals exact hgen
  | aMix ss ih =>
    intro c; simp only [Stream.AddStream]
    exact many ss c _ (AddStreams_outputs_of ss ih c) (fun _ _ => filterAt_outputs _ _ _ _ _)
  | overlay u o x y ihu iho =>
    intro c; simp only [Stream.AddStream]
    exact one u c _ (ihu c) (fun _ c1 =>
      one o c1 _ (iho c1) (fun _ _ => filterAt_outputs _ _ _ _ _))
  | paletteUse u o ihu iho =>
    intro c; simp only [Stream.AddStream]
    exact one u c _ (ihu c) (fun _ c1 =>
      one o c1 _ (iho c1) (fun _ _ => filterAt_outputs _ _ _ _ _))

/-- C18 (resolution is append-only).  After `s.AddStream(c)`, also when it
panics, the source list, the file-handle list and the operator list of before
are each a prefix of the list of after, the name counter has not decreased and
the sink list is unchanged. -/
theorem resolution_append_only (s : Stream) (c : Cmd) :
    c.inputFiles <+: (s.AddStream c).2.inputFiles ∧
    c.extraFiles <+: (s.AddStream c).2.extraFiles ∧
    c.filters <+: (s.AddStream c).2.filters ∧
    c.ns ≤ (s.AddStream c).2.ns ∧
    (s.AddStream c).2.outputs = c.outputs :=
  ⟨(Stream.AddStream_extends s c).inputFiles, (Stream.AddStream_extends s c).extraFiles,
    (Stream.AddStream_extends s c).filters, (Stream.AddStream_extends s c).ns,
    AddStream_outputs s c⟩

/-! ## Suffixes -/

/-- An operator node resolves to a generated name. -/
theorem operator_ref (s : Stream) (c : Cmd) (hc : NamesInv c) (r : String)
    (ho : isOperator s = true) (h : (s.AddStream c).1 = some r) : ∃ m, r = genName m := by
  have inv := fun (s : Stream) (c : Cmd) (hc : NamesInv c) => (namesInv_preserved.AddStream s c hc).1
  have invs := fun (ss : List Stream) (c : Cmd) (hc : NamesInv c) =>
    (namesInv_preserved.AddStreams ss (fun s _ => namesInv_preserved.AddStream s) c hc).1
  cases s with
  | nil => simp [isOperator] at ho
  | input f => simp [isOperator] at ho
  | inputFile file o => simp [isOperator] at ho
  | inputPtr p => simp [isOperator] at ho
  | inputFilePtr p => simp [isOperator] at ho
  | streamPortion s t => simp [isOperator] at ho
  | optionalStream s => simp [isOperator] at ho
  | splitFilter s flt n i =>
    simp only [Stream.AddStream] at h
    obtain ⟨r0, _, h1⟩ := andThen_some h
    exact filterAt_ref (inv s c hc) h1
  | concatFilter ss v a i =>
    simp only [Stream.AddStream] at h
    obtain ⟨r0, _, h1⟩ := andThen_some h
    exact filterAt_ref (invs ss c hc) h1
  | simpFilter s flt =>
    have hgen : (andThen (s.AddStream c) (fun r c1 => c1.filterAt [r] flt 1 0)).1 = some r →
        ∃ m, r = genName m := by
      intro h0
      obtain ⟨r0, _, h1⟩ := andThen_some h0
      exact filterAt_ref (inv s c hc) h1
    cases s
    case nil =>
      simp only [Stream.AddStream] at h
      exact filterAt_ref hc h
    all_goals
      simp only [Stream.AddStream] at h hgen
      exact hgen h
  | aMix ss =>
    simp only [Stream.AddStream] at h
    obtain ⟨r0, _, h1⟩ := andThen_some h
    exact filterAt_ref (invs ss c hc) h1
  | overlay u o x y =>
    simp only [Stream.AddStream] at h
    obtain ⟨r1, _, h1⟩ := andThen_some h
    obtain ⟨r2, _, h2⟩ := andThen_some h1
    exact filterAt_ref (inv o _ (inv u c hc)) h2
  | paletteUse u o =>
    simp only [Stream.AddStream] at h
    obtain ⟨r1, _, h1⟩ := andThen_some h
    obtain ⟨r2, _, h2⟩ := andThen_some h1
    exact filterAt_ref (inv o _ (inv u c hc)) h2

/-- A node that is not a wrapper resolves to the decimal of a source position or
to a generated name. -/
theorem bare_ref (s : Stream) (c : Cmd) (hc : NamesInv c) (r : String)
    (hw : isWrapper s = false) (h : (s.AddStream c).1 = some r) :
    (∃ i : Nat, r = Itoa i) ∨ ∃ m, r = genName m := by
  have src : ∀ (f : Input) (c1 : Cmd), (some (f.AddStream c1).1 = some r) →
      (∃ i : Nat, r = Itoa i) ∨ ∃ m, r = genName m := by
    intro f c1 e
    obtain ⟨i, hi⟩ := Input.AddStream_ref f c1
    simp only [Option.some.injEq] at e
    exact Or.inl ⟨i, by rw [← e, hi]⟩
  cases s with
  | nil => simp [Stream.AddStream] at h
  | input f => simp only [Stream.AddStream] at h; exact src f c h
  | inputFile file o => simp only [Stream.AddStream] at h; exact src _ _ h
  | inputPtr p =>
    cases p with
    | none => simp [Stream.AddStream] at h
    | some f => simp only [Stream.AddStream] at h; exact src f c h
  | inputFilePtr p =>
    cases p with
    | none => simp [Stream.AddStream] at h
    | some q => simp only [Stream.AddStream] at h; exact src _ _ h
  | streamPortion s t => simp [isWrapper] at hw
  | optionalStream s => simp [isWrapper] at hw
  | splitFilter s flt n i => exact Or.inr (operator_ref (.splitFilter s flt n i) c hc r rfl h)
  | concatFilter ss v a i => exact Or.inr (operator_ref (.concatFilter ss v a i) c hc r rfl h)
  | simpFilter s flt => exact Or.inr (operator_ref (.simpFilter s flt) c hc r rfl h)
  | aMix ss => exact Or.inr (operator_ref (.aMix ss) c hc r rfl h)
  | overlay u o x y => exact Or.inr (operator_ref (.overlay u o x y) c hc r rfl h)
  | paletteUse u o => exact Or.inr (operator_ref (.paletteUse u o) c hc r rfl h)

/-- C11 as stated fails: `Video(Hflip(A))` and `Optional(Hflip(A))` are not input
streams, and from the empty context they resolve to the synthesized name `s0`
with the suffix `:v`, respectively `?`. -/
theorem synthesized_reference_with_suffix :
    IsInputStream (Video (Hflip (.input ⟨"A", []⟩))) = false ∧
    (Stream.AddStream (Video (Hflip (.input ⟨"A", []⟩))) Cmd.empty).1 = some ("s0" ++ ":v") ∧
    IsInputStream (Optional (Hflip (.input ⟨"A", []⟩))) = false ∧
    (Stream.AddStream (Optional (Hflip (.input ⟨"A", []⟩))) Cmd.empty).1 = some ("s0" ++ "?") := by
  refine ⟨by decide, by decide, by decide, by decide⟩

/-- C11, amended.  In a reachable context, when node `s` resolves to `r`: if `s`
is not an input stream and is not itself a `Video`/`Audio`/`Optional` wrapper,
`r` holds neither `:` nor `?`, so it carries no suffix; if `s` is an operator
node, `r` is a generated name `s<k>`; a `Video`/`Audio` wrapper resolves to the
reference of the node it wraps followed by `:` and its stream type, an
`Optional` wrapper to that reference followed by `?`, whatever the wrapped node
is. -/
theorem suffix_grammar (c : Cmd) (hc : Reachable c) (s : Stream) (r : String)
    (hr : (s.AddStream c).1 = some r) :
    (IsInputStream s = false → isWrapper s = false →
      ∀ ch ∈ r.data, ch ≠ ':' ∧ ch ≠ '?') ∧
    (isOperator s = true → ∃ m : Nat, r = "s" ++ Itoa m) ∧
    (∀ s0 t, s = .streamPortion s0 t →
      ∃ r0, (s0.AddStream c).1 = some r0 ∧ r = r0 ++ ":" ++ t) ∧
    (∀ s0, s = .optionalStream s0 → ∃ r0, (s0.AddStream c).1 = some r0 ∧ r = r0 ++ "?") := by
  refine ⟨fun _ hw => ?_, fun ho => ?_, fun s0 t e => ?_, fun s0 e => ?_⟩
  · rcases bare_ref s c (reachable_namesInv hc) r hw hr with ⟨i, hi⟩ | ⟨m, hm⟩
    · intro ch hch
      rw [hi] at hch
      exact isDigit_ne_suffixStart ch (Itoa_nat_chars i ch hch)
    · rw [hm]; exact genName_chars m
  · obtain ⟨m, hm⟩ := operator_ref s c (reachable_namesInv hc) r ho hr
    exact ⟨m, hm⟩
  · subst e
    simp only [Stream.AddStream] at hr
    obtain ⟨r0, h0, h1⟩ := andThen_some hr
    simp only [Option.some.injEq] at h1
    exact ⟨r0, h0, h1.symm⟩
  · subst e
    simp only [Stream.AddStream] at hr
    obtain ⟨r0, h0, h1⟩ := andThen_some hr
    simp only [Option.some.injEq] at h1
    exact ⟨r0, h0, h1.symm⟩

/-- Witness of C11 amended: from the empty context `Hflip(A)` resolves to `s0`,
and `Video(Hflip(A))` to the reference of `Hflip(A)` followed by `:v`. -/
theorem suffix_grammar_witness :
    Reachable Cmd.empty ∧
    (Stream.AddStream (Hflip (.input ⟨"A", []⟩)) Cmd.empty).1 = some "s0" ∧
    (∀ ch ∈ ("s0" : String).data, ch ≠ ':' ∧ ch ≠ '?') ∧
    (∃ m : Nat, "s0" = "s" ++ Itoa m) ∧
    (∃ r0, (Stream.AddStream (Hflip (.input ⟨"A", []⟩)) Cmd.empty).1 = some r0 ∧
      "s0:v" = r0 ++ ":" ++ "v") :=
  ⟨Reachable.empty, by decide,
    (suffix_grammar Cmd.empty Reachable.empty (Hflip (.input ⟨"A", []⟩)) "s0" (by decide)).1
      (by decide) (by decide),
    (suffix_grammar Cmd.empty Reachable.empty (Hflip (.input ⟨"A", []⟩)) "s0" (by decide)).2.1
      (by decide),
    (suffix_grammar Cmd.empty Reachable.empty (Video (Hflip (.input ⟨"A", []⟩))) "s0:v"
      (by decide)).2.2.1 _ _ rfl⟩

/-! ## Stored references -/

theorem Resolved.grow {c c1 : Cmd} (he : c.Extends c1) {b : String} (h : Resolved c b) :
    Resolved c1 b := by
  rcases h with ⟨i, hi, e⟩ | h
  · exact Or.inl ⟨i, lt_of_lt_of_le hi he.inputFiles.length_le, e⟩
  · exact Or.inr (outNames_mono he.filters h)

theorem RefValid.extend {c c1 : Cmd} (he : c.Extends c1) {r : String} (h : RefValid c r) :
    RefValid c1 r := by
  obtain ⟨base, suf, e, hs, hb⟩ := h
  exact ⟨base, suf, e, hs, hb.grow he⟩

theorem RefValid.add_suffix {c : Cmd} {r : String} (hr : RefValid c r) (ch : Char) (t : String)
    (hch : ch = ':' ∨ ch = '?') : RefValid c (r ++ (String.singleton ch ++ t)) := by
  obtain ⟨base, suf, e, hs, hb⟩ := hr
  refine ⟨base, suf ++ (String.singleton ch ++ t), by rw [e, String.append_assoc], Or.inr ?_, hb⟩
  rcases hs with rfl | ⟨c0, rest, hd, hc0⟩
  · exact ⟨ch, t.data, by simp [String.singleton], hch⟩
  · exact ⟨c0, rest ++ (String.singleton ch ++ t).data, by simp [hd], hc0⟩

theorem RefValid.of_name {c : Cmd} {r : String} (hr : r ∈ outNames c.filters) : RefValid c r :=
  ⟨r, "", by simp, Or.inl rfl, Or.inr hr⟩

theorem RefsInv.carry {c c1 : Cmd} (h : RefsInv c) (he : c.Extends c1)
    (hf : c1.filters = c.filters) (ho : c1.outputs = c.outputs) : RefsInv c1 := by
  refine ⟨fun f hfm r hr => ?_, fun o hom x hx => ?_⟩
  · rw [hf] at hfm; exact (h.1 f hfm r hr).extend he
  · rw [ho] at hom
    obtain ⟨r, hv, e⟩ := h.2 o hom x hx
    exact ⟨r, hv.extend he, e⟩

theorem refsInv_preserved : Preserved RefsInv RefValid where
  mono := fun _ _ _ _ he _ hr => hr.extend he
  source := fun f c hc => by
    have h := Input.AddStream_filters f c
    refine ⟨hc.carry (input_AddStream_extends f c) h.1 h.2.2.2, ?_⟩
    obtain ⟨i, hi, e⟩ := Input.AddStream_entry f c
    exact ⟨_, "", by simp, Or.inl rfl, Or.inl ⟨i, (List.getElem?_eq_some.1 e).1, hi⟩⟩
  file := fun file c hc => by
    have h := addExtraFile_filters c file
    exact hc.carry (Cmd.addExtraFile_extends c file) h.1 h.2.2.2
  portion := fun c r t _ hr => by
    have h := hr.add_suffix ':' t (Or.inl rfl)
    have e : r ++ ":" ++ t = r ++ (String.singleton ':' ++ t) := by
      rw [String.append_assoc]; rfl
    rw [e]; exact h
  optional := fun c r _ hr => by
    have h := hr.add_suffix '?' "" (Or.inr rfl)
    have e : r ++ "?" = r ++ (String.singleton '?' ++ "") := by
      rw [String.append_empty]; rfl
    rw [e]; exact h
  operator := fun c ins str n hc hins => by
    have hext := Cmd.filter_extends c ins str n
    rcases filter_cases c ins str n with ⟨out, hs, h⟩ | ⟨_, _, h⟩ | ⟨hs, hn, h⟩
    · rw [h]
      refine ⟨hc, fun out1 ho r hr => ?_⟩
      simp only [Option.some.injEq] at ho
      subst ho
      exact RefValid.of_name (search_some_mem hs hr)
    · rw [h]
      exact ⟨hc, fun out1 ho => by cases ho⟩
    · rw [h] at hext ⊢
      refine ⟨⟨fun f hfm r hr => ?_, fun o hom x hx => ?_⟩, fun out1 ho r hr => ?_⟩
      · rcases List.mem_append.1 hfm with hfm | hfm
        · exact (hc.1 f hfm r hr).extend hext
        · rw [List.mem_singleton] at hfm
          subst hfm
          exact (hins r hr).extend hext
      · obtain ⟨r, hv, e⟩ := hc.2 o hom x hx
        exact ⟨r, hv.extend hext, e⟩
      · simp only [Option.some.injEq] at ho
        subst ho
        apply RefValid.of_name
        rw [outNames_append, outNames_singleton]
        exact List.mem_append_right _ hr
  sink := fun c name options sels hc hsels => by
    have hext : c.Extends { c with outputs := c.outputs ++ [⟨name, options, sels⟩] } :=
      ⟨List.prefix_refl _, List.prefix_refl _, List.prefix_refl _, List.prefix_append _ _,
        le_refl _⟩
    refine ⟨fun f hfm r hr => (hc.1 f hfm r hr).extend hext, fun o hom x hx => ?_⟩
    rcases List.mem_append.1 hom with hom | hom
    · obtain ⟨r, hv, e⟩ := hc.2 o hom x hx
      exact ⟨r, hv.extend hext, e⟩
    · rw [List.mem_singleton] at hom
      subst hom
      obtain ⟨r, hv, e⟩ := hsels x hx
      exact ⟨r, hv.extend hext, e⟩

theorem reachable_refsInv {c : Cmd} (hc : Reachable c) : RefsInv c :=
  refsInv_preserved.reachable
    ⟨fun f hf => by simp [Cmd.empty] at hf, fun o ho => by simp [Cmd.empty] at ho⟩ c hc

theorem isDigit_ne_bracket (ch : Char) (h : ch.isDigit = true) : ch ≠ '[' := by
  rintro rfl; revert h; decide

/-- A valid reference has a resolved base and does not start with a bracket. -/
theorem RefValid.base {c : Cmd} (hn : NamesInv c) {r : String} (h : RefValid c r) :
    Resolved c (refBase r) ∧ ∃ ch rest, r.data = ch :: rest ∧ ch ≠ '[' := by
  obtain ⟨base, suf, e, hs, hb⟩ := h
  rcases hb with ⟨i, hi, hbase⟩ | hmem
  · have h1 : refBase r = base := by
      rw [e]; apply refBase_append _ _ _ hs
      intro ch hch; rw [hbase] at hch
      exact isDigit_ne_suffixStart ch (Itoa_nat_chars i ch hch)
    obtain ⟨ch, rest, hd, hdig⟩ := Itoa_nat_head i
    refine ⟨by rw [h1]; exact Or.inl ⟨i, hi, hbase⟩, ch, rest ++ suf.data, ?_,
      isDigit_ne_bracket ch hdig⟩
    rw [e, hbase]; exact head_append hd
  · obtain ⟨m, _, hm⟩ := hn.mem hmem
    have h1 : refBase r = base := by
      rw [e]; apply refBase_append _ _ _ hs
      rw [hm]; exact genName_chars m
    refine ⟨by rw [h1]; exact Or.inr hmem, 's', (Nat.repr m).data ++ suf.data, ?_, by decide⟩
    rw [e, hm]; exact head_append (genName_data m)

theorem unbracket_of_head {r : String} {ch : Char} {rest : List Char} (h : r.data = ch :: rest)
    (hch : ch ≠ '[') : unbracket r = r := by
  unfold unbracket
  rw [h]
  split
  · rename_i rest1 heq
    exact absurd (List.cons.inj heq).1 hch
  · rfl

theorem unbracket_brackets (r : String) : unbracket ("[" ++ r ++ "]") = r := by
  unfold unbracket
  have h : ("[" ++ r ++ "]").data = '[' :: (r.data ++ [']']) := by simp
  rw [h]
  simp

/-- C19 (no dangling references).  In a reachable context every input reference
of an operator application and every stream reference of a sink, taken without
surrounding brackets and without suffixes, is the decimal of a position of the
source list or an output name of the operator list. -/
theorem no_dangling_references (c : Cmd) (hc : Reachable c) :
    (∀ f ∈ c.filters, ∀ r ∈ f.In,
      (∃ i : Nat, i < c.inputFiles.length ∧ refBase (unbracket r) = Itoa i) ∨
        refBase (unbracket r) ∈ outNames c.filters) ∧
    (∀ o ∈ c.outputs, ∀ x ∈ o.StreamSels,
      (∃ i : Nat, i < c.inputFiles.length ∧ refBase (unbracket x) = Itoa i) ∨
        refBase (unbracket x) ∈ outNames c.filters) := by
  have hn := reachable_namesInv hc
  have hr := reachable_refsInv hc
  refine ⟨fun f hf r hrm => ?_, fun o ho x hx => ?_⟩
  · obtain ⟨hres, ch, rest, hd, hch⟩ := (hr.1 f hf r hrm).base hn
    rw [unbracket_of_head hd hch]; exact hres
  · obtain ⟨r, hv, e⟩ := hr.2 o ho x hx
    obtain ⟨hres, ch, rest, hd, hch⟩ := hv.base hn
    rcases e with rfl | rfl
    · rw [unbracket_of_head hd hch]; exact hres
    · rw [unbracket_brackets]; exact hres

/-- Witness of C19: after `AddOutput("out", Video(Hflip(A)), Optional(Audio(A)))`
the sink holds `[s0:v]` and `0:a?`; their bases are `s0`, an output name, and
`0`, a position of the source list. -/
theorem no_dangling_references_witness :
    Reachable (Cmd.empty.AddOutput "out" []
      [Video (Hflip (.input ⟨"A", []⟩)), Optional (Audio (.input ⟨"A", []⟩))]).2 ∧
    (Cmd.empty.AddOutput "out" []
      [Video (Hflip (.input ⟨"A", []⟩)), Optional (Audio (.input ⟨"A", []⟩))]).2.outputs =
      [⟨"out", [], ["[s0:v]", "0:a?"]⟩] ∧
    refBase (unbracket "[s0:v]") = "s0" ∧ refBase (unbracket "0:a?") = "0" ∧
    ((∃ i : Nat, i < (Cmd.empty.AddOutput "out" []
        [Video (Hflip (.input ⟨"A", []⟩)), Optional (Audio (.input ⟨"A", []⟩))]).2.inputFiles.length ∧
        refBase (unbracket "[s0:v]") = Itoa i) ∨
      refBase (unbracket "[s0:v]") ∈ outNames (Cmd.empty.AddOutput "out" []
        [Video (Hflip (.input ⟨"A", []⟩)), Optional (Audio (.input ⟨"A", []⟩))]).2.filters) :=
  ⟨Reachable.addOutput _ _ _ Reachable.empty, by decide, by decide, by decide,
    (no_dangling_references _ (Reachable.addOutput "out" []
      [Video (Hflip (.input ⟨"A", []⟩)), Optional (Audio (.input ⟨"A", []⟩))] Reachable.empty)).2
      ⟨"out", [], ["[s0:v]", "0:a?"]⟩ (by decide) "[s0:v]" (by decide)⟩


end ffmpeg
